import Mathlib

/-!
A verification development for the DNS request/response codec (dns_req.go)

The Go program is embedded shallowly:

* a byte is a natural number (below 256 for every real input); a Go string is
  the list of its bytes;
* a Go slice is the list of its elements together with the bytes of its
  backing array that lie between its length and its capacity, because Go
  checks an index expression against the length and a slice expression
  against the capacity;
* a run-time panic (index or slice bounds out of range) is the error value
  Fault.panic; the loops of the program run on fuel, and running out of fuel
  is the separate error value Fault.fuel, which the lemmas show never
  happens with the fuel the definitions pass;
* uint16 arithmetic is arithmetic on naturals modulo 65536, byte conversion
  is reduction modulo 256.
-/

namespace DnsReq

/-- The ways a call can end without returning. -/
inductive Fault where
  | panic
  | fuel
  deriving DecidableEq, Repr

deriving instance DecidableEq for Except

/-- A Go string, as the list of its bytes. -/
abbrev GoString := List Nat

/-- A Go byte slice: elems are the len(s) elements, spare the bytes of the
backing array from len(s) up to cap(s). -/
structure Slice where
  elems : List Nat
  spare : List Nat
  deriving DecidableEq, Repr

namespace Slice

/-- len(s) -/
def len (s : Slice) : Nat := s.elems.length

/-- cap(s) -/
def cap (s : Slice) : Nat := s.elems.length + s.spare.length

/-- The backing array from the first element of the slice to its capacity. -/
def mem (s : Slice) : List Nat := s.elems ++ s.spare

/-- The index expression s[i]: panics unless i < len(s). -/
def index (s : Slice) (i : Nat) : Except Fault Nat :=
  match s.elems[i]? with
  | some b => .ok b
  | none => .error .panic

/-- The slice expression s[lo:hi]: panics unless lo ≤ hi ≤ cap(s). -/
def slice (s : Slice) (lo hi : Nat) : Except Fault Slice :=
  if lo ≤ hi ∧ hi ≤ s.cap then
    .ok ⟨(s.mem.drop lo).take (hi - lo), s.mem.drop hi⟩
  else .error .panic

/-- The slice expression s[lo:]: the upper bound is len(s), so it panics
unless lo ≤ len(s). -/
def sliceFrom (s : Slice) (lo : Nat) : Except Fault Slice :=
  s.slice lo s.len

/-- The slice expression s[:hi]: panics unless hi ≤ cap(s). -/
def sliceTo (s : Slice) (hi : Nat) : Except Fault Slice :=
  s.slice 0 hi

end Slice

/-- The byte of the separator "." -/
def dot : Nat := 46

/-- The bytes of an ASCII string literal. -/
def ascii (s : String) : GoString := s.toList.map Char.toNat

/-- strings.Split(s, "."): the substrings between the "." bytes; a string
without "." gives the one-element list of itself. -/
def splitDot : GoString → List GoString
  | [] => [[]]
  | c :: cs =>
    if c = dot then [] :: splitDot cs
    else
      match splitDot cs with
      | [] => [[c]]
      | seg :: rest => (c :: seg) :: rest

/-- strings.Trim(s, "."): s without its leading and trailing "." bytes. -/
def trimDot (s : GoString) : GoString :=
  ((s.dropWhile (· = dot)).reverse.dropWhile (· = dot)).reverse

/-- The type Header: six uint16 fields. -/
structure Header where
  ID : Nat
  Flag : Nat
  QuestionCount : Nat
  AnswerCount : Nat
  AuthorityCount : Nat
  AdditionalCount : Nat
  deriving DecidableEq, Repr

/-- The value of the expression
qr<<15 + opcode<<11 + aa<<10 + tc<<9 + rd<<8 + ra<<7 + rcode on uint16:
every shift and every sum is reduced modulo 65536. -/
def flagValue (qr opcode aa tc rd ra rcode : Nat) : Nat :=
  ((((((qr <<< 15 % 65536 + opcode <<< 11 % 65536) % 65536
    + aa <<< 10 % 65536) % 65536
    + tc <<< 9 % 65536) % 65536
    + rd <<< 8 % 65536) % 65536
    + ra <<< 7 % 65536) % 65536
    + rcode % 65536) % 65536

/-- The method (h *Header) SetFlag. -/
def Header.SetFlag (h : Header) (qr opcode aa tc rd ra rcode : Nat) : Header :=
  { h with Flag := flagValue qr opcode aa tc rd ra rcode }

/-- The type Query. -/
structure Query where
  QuestionType : Nat
  QuestionClass : Nat
  deriving DecidableEq, Repr

/-- binary.Write of a uint16 in big-endian order. -/
def be16 (v : Nat) : List Nat := [v / 256 % 256, v % 256]

/-- binary.Write(&buf, binary.BigEndian, header): the fields in declaration
order, two bytes each. -/
def Header.encode (h : Header) : List Nat :=
  be16 h.ID ++ be16 h.Flag ++ be16 h.QuestionCount ++ be16 h.AnswerCount
    ++ be16 h.AuthorityCount ++ be16 h.AdditionalCount

/-- binary.Write(&buf, binary.BigEndian, query). -/
def Query.encode (q : Query) : List Nat :=
  be16 q.QuestionType ++ be16 q.QuestionClass

/-- The loop of ParseDN: for each segment the byte byte(len(seg)), then the
bytes of the segment, appended to the buffer. -/
def ParseDNLoop (buf : List Nat) : List GoString → List Nat
  | [] => buf
  | seg :: segments => ParseDNLoop (buf ++ [seg.length % 256] ++ seg) segments

/-- The function ParseDN: the contents of the byte slice it returns. -/
def ParseDN (dn : GoString) : List Nat :=
  ParseDNLoop [] (splitDot dn) ++ [0]

/-- The request DigDN assembles in buf before it dials the server. -/
def DigDNRequest (dn : GoString) : List Nat :=
  let header : Header :=
    { ID := 0, Flag := 0, QuestionCount := 0, AnswerCount := 0,
      AuthorityCount := 0, AdditionalCount := 0 }
  let header := { header with AnswerCount := 0 }
  let header := { header with ID := 0xFFFF }
  let header := { header with AdditionalCount := 0 }
  let header := header.SetFlag 0 0 0 0 0 0 0
  let header := { header with AuthorityCount := 0 }
  let header := { header with QuestionCount := 1 }
  let query : Query := { QuestionClass := 1, QuestionType := 1 }
  header.encode ++ ParseDN dn ++ query.encode

/-- The loop of getDN, on fuel. index and dn are the loop variables. -/
def getDNLoop (bytes : Slice) : Nat → Nat → GoString → Except Fault GoString
  | 0, _, _ => .error .fuel
  | fuel + 1, index, dn =>
    if index ≥ bytes.len then .ok dn
    else do
      let l ← bytes.index index
      if l = 0 then .ok dn
      else if index + 1 + l > bytes.len then do
        let s ← bytes.sliceFrom (index + 1)
        getDNLoop bytes fuel (index + 1 + l) (dn ++ s.elems ++ [dot])
      else do
        let s ← bytes.slice (index + 1) (index + l + 1)
        getDNLoop bytes fuel (index + 1 + l) (dn ++ s.elems ++ [dot])

/-- The function getDN. Every pass of the loop moves index forward, so
len(bytes) + 1 passes are enough. -/
def getDN (bytes : Slice) : Except Fault GoString := do
  let dn ← getDNLoop bytes (bytes.len + 1) 0 []
  .ok (trimDot dn)

/-- The function getQuery. -/
def getQuery (bytes : Slice) : Except Fault GoString :=
  getDN bytes

/-- uint16(hi)<<8 + uint16(lo) on uint16. -/
def u16 (hi lo : Nat) : Nat := (hi <<< 8 % 65536 + lo % 65536) % 65536

/-- fmt.Sprintf with the verb %d on one byte: its decimal digits. -/
def fmtD (b : Nat) : GoString := (Nat.toDigits 10 b).map Char.toNat

/-- fmt.Sprintf("%d.%d.%d.%d", address[0], address[1], address[2], address[3]),
the arguments evaluated left to right. -/
def fmtAddress (address : Slice) : Except Fault GoString := do
  let a0 ← address.index 0
  let a1 ← address.index 1
  let a2 ← address.index 2
  let a3 ← address.index 3
  .ok (fmtD a0 ++ [dot] ++ fmtD a1 ++ [dot] ++ fmtD a2 ++ [dot] ++ fmtD a3)

/-- The function getAnswer. -/
def getAnswer (bytes : Slice) : Except Fault GoString := do
  let b2 ← bytes.index 2
  let b3 ← bytes.index 3
  let typ := u16 b2 b3
  let datalenIndex := 2 + 2 + 2 + 4
  let d0 ← bytes.index datalenIndex
  let d1 ← bytes.index (datalenIndex + 1)
  let dataLen := u16 d0 d1
  let address ← bytes.slice (datalenIndex + 2) (datalenIndex + 2 + dataLen)
  if typ = 1 then fmtAddress address
  else if typ = 5 then getDN bytes
  else .ok []

/-- The function getIP. -/
def getIP (bytes : Slice) : Except Fault GoString := do
  let b2 ← bytes.index 2
  let b3 ← bytes.index 3
  let typ := u16 b2 b3
  let datalenIndex := 2 + 2 + 2 + 4
  let d0 ← bytes.index datalenIndex
  let d1 ← bytes.index (datalenIndex + 1)
  let dataLen := u16 d0 d1
  let address ← bytes.slice (datalenIndex + 2) (datalenIndex + 2 + dataLen)
  if typ = 1 then fmtAddress address
  else .ok []

/-- The inner loop of the question walk of dnsResDecode, on fuel: index moves
over the labels until it stands on a zero byte. -/
def skipLabels (data : Slice) : Nat → Nat → Except Fault Nat
  | 0, _ => .error .fuel
  | fuel + 1, index => do
    let l ← data.index index
    if l = 0 then .ok index
    else skipLabels data fuel (index + 1 + l)

/-- One pass of the question loop of dnsResDecode from index: the bytes of
the question and the index of the next record. -/
def questionStep (data : Slice) (index : Nat) : Except Fault (Slice × Nat) := do
  let start := index
  let index ← skipLabels data (data.len + 1) index
  let index := index + 4
  let q ← data.slice start (index + 1)
  .ok (q, index + 1)

/-- The question loop of dnsResDecode: count passes from index. -/
def questionLoop (data : Slice) : Nat → Nat → Except Fault (List Slice × Nat)
  | 0, index => .ok ([], index)
  | count + 1, index => do
    let (q, index) ← questionStep data index
    let (qs, index) ← questionLoop data count index
    .ok (q :: qs, index)

/-- One pass of the answer loop of dnsResDecode from index: the bytes of the
record and the index of the next record. -/
def answerStep (data : Slice) (index : Nat) : Except Fault (Slice × Nat) := do
  let start := index
  let nums := 2 + 2 + 2 + 4 + 2
  let dataLenIndex := start + 2 + 2 + 2 + 4
  let d0 ← data.index dataLenIndex
  let d1 ← data.index (dataLenIndex + 1)
  let dataLen := u16 d0 d1
  let index := start + nums - 1 + dataLen
  let a ← data.slice start (index + 1)
  .ok (a, index + 1)

/-- The answer loop of dnsResDecode: count passes from index. -/
def answerLoop (data : Slice) : Nat → Nat → Except Fault (List Slice × Nat)
  | 0, index => .ok ([], index)
  | count + 1, index => do
    let (a, index) ← answerStep data index
    let (as, index) ← answerLoop data count index
    .ok (a :: as, index)

/-- The last loop of dnsResDecode: the answer string of every record, and
the address of the records that have one. -/
def collectAnswers : List Slice → Except Fault (List GoString × List GoString)
  | [] => .ok ([], [])
  | bytes :: rest => do
    let answer ← getAnswer bytes
    let ip ← getIP bytes
    let (answers, ips) ← collectAnswers rest
    .ok (answer :: answers, if ip ≠ [] then ip :: ips else ips)

/-- The loop of dnsResDecode over queryBytes: the name of every question. -/
def collectQuerys : List Slice → Except Fault (List GoString)
  | [] => .ok []
  | bytes :: rest => do
    let query ← getQuery bytes
    let querys ← collectQuerys rest
    .ok (query :: querys)

/-- The function dnsResDecode: querys, answers, ips. -/
def dnsResDecode (buf : Slice) :
    Except Fault (List GoString × List GoString × List GoString) := do
  let header ← buf.sliceTo 12
  let h4 ← header.index 4
  let h5 ← header.index 5
  let queryNum := u16 h4 h5
  let h6 ← header.index 6
  let h7 ← header.index 7
  let answerNum := u16 h6 h7
  let data ← buf.sliceFrom 12
  let (queryBytes, index) ← questionLoop data queryNum 0
  let (answerBytes, _) ← answerLoop data answerNum index
  let querys ← collectQuerys queryBytes
  let (answers, ips) ← collectAnswers answerBytes
  .ok (querys, answers, ips)

/-! ## Wire formats used to state the theorems -/

/-- The labels joined by single "." separators: the dotted name. -/
def joinDot : List GoString → GoString
  | [] => []
  | [l] => l
  | l :: m :: ls => l ++ dot :: joinDot (m :: ls)

/-- The uncompressed wire form of a label sequence, without its terminator:
every label after its length byte. -/
def encodeLabels (labels : List GoString) : List Nat :=
  (labels.map (fun l => l.length :: l)).flatten

/-- A question on the wire: the labels of its name, then the bytes that
follow the zero terminator (type and class). -/
structure Question where
  labels : List GoString
  fixed : List Nat
  deriving DecidableEq, Repr

/-- The bytes of a question. -/
def Question.wire (q : Question) : List Nat :=
  encodeLabels q.labels ++ 0 :: q.fixed

/-- A question is well formed when its labels are non-empty and four bytes
of type and class follow the name. -/
def Question.wf (q : Question) : Prop :=
  (∀ l ∈ q.labels, 1 ≤ l.length) ∧ q.fixed.length = 4

instance (q : Question) : Decidable q.wf := by
  unfold Question.wf
  infer_instance

/-- The name of a question as getDN builds it: every label followed by ".",
trimmed. -/
def Question.name (q : Question) : GoString :=
  trimDot ((q.labels.map (fun l => l ++ [dot])).flatten)

/-- A resource record on the wire whose owner-name field is two bytes long:
owner name, type, class, TTL, then the data behind its two length bytes. -/
structure Record where
  name0 : Nat
  name1 : Nat
  type0 : Nat
  type1 : Nat
  class0 : Nat
  class1 : Nat
  ttl0 : Nat
  ttl1 : Nat
  ttl2 : Nat
  ttl3 : Nat
  rdata : List Nat
  deriving DecidableEq, Repr

/-- The bytes of a record. -/
def Record.wire (r : Record) : List Nat :=
  [r.name0, r.name1, r.type0, r.type1, r.class0, r.class1,
    r.ttl0, r.ttl1, r.ttl2, r.ttl3] ++ be16 r.rdata.length ++ r.rdata

/-- A record as the claims on address records describe it: TYPE = 1 and
RDLENGTH = 4. -/
def Record.isA (r : Record) : Prop :=
  r.type0 = 0 ∧ r.type1 = 1 ∧ r.rdata.length = 4

instance (r : Record) : Decidable r.isA := by
  unfold Record.isA
  infer_instance

/-- The dotted-decimal string of four bytes. -/
def dotted (a b c d : Nat) : GoString :=
  fmtD a ++ [dot] ++ fmtD b ++ [dot] ++ fmtD c ++ [dot] ++ fmtD d

/-- The dotted-decimal string of the first four data bytes of a record. -/
def Record.address (r : Record) : GoString :=
  match r.rdata with
  | a :: b :: c :: d :: _ => dotted a b c d
  | _ => []

/-- The type field of a record as getAnswer and getIP read it, from bytes 2
and 3 of the record. -/
def recordType (bytes : Slice) : Except Fault Nat := do
  let b2 ← bytes.index 2
  let b3 ← bytes.index 3
  .ok (u16 b2 b3)

/-- The slices a loop of dnsResDecode cuts out of data for consecutive
records: each holds its record, and has the rest of the backing array as
spare capacity. -/
def sectionSlices : List (List Nat) → List Nat → List Slice
  | [], _ => []
  | w :: ws, after => ⟨w, ws.flatten ++ after⟩ :: sectionSlices ws after

/-- The end of a buffer that is cut inside a label: nothing, or a length
byte followed by fewer bytes than it announces. -/
def cutLabel : List Nat → Prop
  | [] => True
  | l :: bytes => bytes.length < l

/-! ## Header flags -/

theorem flagValue_eq_sum (qr opcode aa tc rd ra rcode : Nat)
    (hqr : qr < 2) (hop : opcode < 16) (haa : aa < 2) (htc : tc < 2)
    (hrd : rd < 2) (hra : ra < 2) (hrc : rcode < 16) :
    flagValue qr opcode aa tc rd ra rcode
      = qr * 32768 + opcode * 2048 + aa * 1024 + tc * 512 + rd * 256
          + ra * 128 + rcode := by
  unfold flagValue
  simp only [Nat.shiftLeft_eq]
  omega

theorem lor_eq_add_of_shifted (x a i b : Nat) (hx : x = a * 2 ^ i)
    (hb : b < 2 ^ i) : x ||| b = x + b := by
  subst hx
  rw [Nat.mul_comm a (2 ^ i)]
  exact (Nat.mul_add_lt_is_or hb a).symm

theorem lor_fields_eq_sum (qr opcode aa tc rd ra rcode : Nat)
    (hop : opcode < 16) (haa : aa < 2) (htc : tc < 2)
    (hrd : rd < 2) (hra : ra < 2) (hrc : rcode < 16) :
    qr <<< 15 ||| opcode <<< 11 ||| aa <<< 10 ||| tc <<< 9 ||| rd <<< 8
        ||| ra <<< 7 ||| rcode
      = qr * 32768 + opcode * 2048 + aa * 1024 + tc * 512 + rd * 256
          + ra * 128 + rcode := by
  simp only [Nat.shiftLeft_eq]
  norm_num
  rw [lor_eq_add_of_shifted (qr * 32768) qr 15 (opcode * 2048)
    (by norm_num) (by norm_num; omega)]
  rw [lor_eq_add_of_shifted _ (qr * 16 + opcode) 11 (aa * 1024)
    (by norm_num; omega) (by norm_num; omega)]
  rw [lor_eq_add_of_shifted _ (qr * 32 + opcode * 2 + aa) 10 (tc * 512)
    (by norm_num; omega) (by norm_num; omega)]
  rw [lor_eq_add_of_shifted _ (qr * 64 + opcode * 4 + aa * 2 + tc) 9 (rd * 256)
    (by norm_num; omega) (by norm_num; omega)]
  rw [lor_eq_add_of_shifted _ (qr * 128 + opcode * 8 + aa * 4 + tc * 2 + rd) 8
    (ra * 128) (by norm_num; omega) (by norm_num; omega)]
  rw [lor_eq_add_of_shifted _
    (qr * 256 + opcode * 16 + aa * 8 + tc * 4 + rd * 2 + ra) 7 rcode
    (by norm_num; omega) (by norm_num; omega)]

/-- C8. For one-bit qr, aa, tc, rd, ra and four-bit opcode, rcode, SetFlag
sets Flag to the bitwise OR of the sub-fields shifted to bits 15, 14-11, 10,
9, 8, 7 and 3-0; the value fits 16 bits and its bits 6-4 are zero. -/
theorem SetFlag_packs_fields (h : Header) (qr opcode aa tc rd ra rcode : Nat)
    (hqr : qr < 2) (hop : opcode < 16) (haa : aa < 2) (htc : tc < 2)
    (hrd : rd < 2) (hra : ra < 2) (hrc : rcode < 16) :
    (h.SetFlag qr opcode aa tc rd ra rcode).Flag
        = qr <<< 15 ||| opcode <<< 11 ||| aa <<< 10 ||| tc <<< 9 ||| rd <<< 8
            ||| ra <<< 7 ||| rcode
      ∧ (h.SetFlag qr opcode aa tc rd ra rcode).Flag < 2 ^ 16
      ∧ (h.SetFlag qr opcode aa tc rd ra rcode).Flag >>> 4 &&& 7 = 0 := by
  have hs := flagValue_eq_sum qr opcode aa tc rd ra rcode hqr hop haa htc hrd hra hrc
  have ho := lor_fields_eq_sum qr opcode aa tc rd ra rcode hop haa htc hrd hra hrc
  have h7 : ∀ x : Nat, x &&& 7 = x % 2 ^ 3 := fun x =>
    Nat.and_pow_two_sub_one_eq_mod x 3
  refine ⟨?_, ?_, ?_⟩
  · show flagValue qr opcode aa tc rd ra rcode = _
    rw [hs, ho]
  · show flagValue qr opcode aa tc rd ra rcode < _
    rw [hs]; norm_num; omega
  · show flagValue qr opcode aa tc rd ra rcode >>> 4 &&& 7 = 0
    rw [hs, h7, Nat.shiftRight_eq_div_pow]; norm_num; omega

theorem SetFlag_packs_fields_witness :
    ((Header.mk 0xFFFF 0 1 0 0 0).SetFlag 1 2 0 0 1 1 3).Flag
        = 1 <<< 15 ||| 2 <<< 11 ||| 0 <<< 10 ||| 0 <<< 9 ||| 1 <<< 8
            ||| 1 <<< 7 ||| 3
      ∧ ((Header.mk 0xFFFF 0 1 0 0 0).SetFlag 1 2 0 0 1 1 3).Flag < 2 ^ 16
      ∧ ((Header.mk 0xFFFF 0 1 0 0 0).SetFlag 1 2 0 0 1 1 3).Flag >>> 4 &&& 7 = 0 :=
  SetFlag_packs_fields (Header.mk 0xFFFF 0 1 0 0 0) 1 2 0 0 1 1 3
    (by decide) (by decide) (by decide) (by decide) (by decide) (by decide)
    (by decide)

/-- C9. For sub-fields within their widths, bit 15, bits 14-11, bit 10, bit 9,
bit 8, bit 7 and bits 3-0 of the Flag set by SetFlag are qr, opcode, aa, tc,
rd, ra and rcode again; so two in-range argument lists that give the same
Flag are equal. -/
theorem SetFlag_round_trip (h : Header) (qr opcode aa tc rd ra rcode : Nat)
    (hqr : qr < 2) (hop : opcode < 16) (haa : aa < 2) (htc : tc < 2)
    (hrd : rd < 2) (hra : ra < 2) (hrc : rcode < 16) :
    ((h.SetFlag qr opcode aa tc rd ra rcode).Flag >>> 15 &&& 1 = qr
      ∧ (h.SetFlag qr opcode aa tc rd ra rcode).Flag >>> 11 &&& 15 = opcode
      ∧ (h.SetFlag qr opcode aa tc rd ra rcode).Flag >>> 10 &&& 1 = aa
      ∧ (h.SetFlag qr opcode aa tc rd ra rcode).Flag >>> 9 &&& 1 = tc
      ∧ (h.SetFlag qr opcode aa tc rd ra rcode).Flag >>> 8 &&& 1 = rd
      ∧ (h.SetFlag qr opcode aa tc rd ra rcode).Flag >>> 7 &&& 1 = ra
      ∧ (h.SetFlag qr opcode aa tc rd ra rcode).Flag &&& 15 = rcode)
    ∧ ∀ (k : Header) (qr2 opcode2 aa2 tc2 rd2 ra2 rcode2 : Nat),
        qr2 < 2 → opcode2 < 16 → aa2 < 2 → tc2 < 2 → rd2 < 2 → ra2 < 2 →
        rcode2 < 16 →
        (k.SetFlag qr2 opcode2 aa2 tc2 rd2 ra2 rcode2).Flag
          = (h.SetFlag qr opcode aa tc rd ra rcode).Flag →
        qr2 = qr ∧ opcode2 = opcode ∧ aa2 = aa ∧ tc2 = tc ∧ rd2 = rd
          ∧ ra2 = ra ∧ rcode2 = rcode := by
  have hs := flagValue_eq_sum qr opcode aa tc rd ra rcode hqr hop haa htc hrd hra hrc
  have h1 : ∀ x : Nat, x &&& 1 = x % 2 := Nat.and_one_is_mod
  have h15 : ∀ x : Nat, x &&& 15 = x % 2 ^ 4 := fun x =>
    Nat.and_pow_two_sub_one_eq_mod x 4
  have hF : (h.SetFlag qr opcode aa tc rd ra rcode).Flag
      = qr * 32768 + opcode * 2048 + aa * 1024 + tc * 512 + rd * 256
          + ra * 128 + rcode := hs
  refine ⟨?_, ?_⟩
  · rw [hF]
    simp only [h1, h15, Nat.shiftRight_eq_div_pow]
    norm_num
    omega
  · intro k qr2 opcode2 aa2 tc2 rd2 ra2 rcode2 gqr gop gaa gtc grd gra grc heq
    have hs2 := flagValue_eq_sum qr2 opcode2 aa2 tc2 rd2 ra2 rcode2
      gqr gop gaa gtc grd gra grc
    have hF2 : (k.SetFlag qr2 opcode2 aa2 tc2 rd2 ra2 rcode2).Flag
        = qr2 * 32768 + opcode2 * 2048 + aa2 * 1024 + tc2 * 512 + rd2 * 256
            + ra2 * 128 + rcode2 := hs2
    rw [hF, hF2] at heq
    omega

/-! ## Names -/

theorem splitDot_ne_nil (s : GoString) : splitDot s ≠ [] := by
  induction s with
  | nil => simp [splitDot]
  | cons c cs ih =>
    unfold splitDot
    split
    · simp
    · split
      · simp
      · simp

theorem splitDot_append_dot (l rest : GoString) (hl : dot ∉ l) :
    splitDot (l ++ dot :: rest) = l :: splitDot rest := by
  induction l with
  | nil => simp [splitDot]
  | cons c cs ih =>
    have hc : c ≠ dot := fun h => hl (by simp [h])
    have hcs : dot ∉ cs := fun h => hl (by simp [h])
    rw [List.cons_append, splitDot, if_neg hc, ih hcs]

theorem splitDot_no_dot (l : GoString) (hl : dot ∉ l) : splitDot l = [l] := by
  induction l with
  | nil => simp [splitDot]
  | cons c cs ih =>
    have hc : c ≠ dot := fun h => hl (by simp [h])
    have hcs : dot ∉ cs := fun h => hl (by simp [h])
    simp only [splitDot, hc, if_false, ih hcs]

theorem splitDot_joinDot (labels : List GoString) (hne : labels ≠ [])
    (hdot : ∀ l ∈ labels, dot ∉ l) : splitDot (joinDot labels) = labels := by
  induction labels with
  | nil => exact absurd rfl hne
  | cons l ls ih =>
    cases ls with
    | nil => simpa [joinDot] using splitDot_no_dot l (hdot l (by simp))
    | cons m ms =>
      have h1 : dot ∉ l := hdot l (by simp)
      have h2 := ih (by simp) (fun x hx => hdot x (by simp [hx]))
      simp only [joinDot]
      rw [splitDot_append_dot l _ h1, h2]

theorem ParseDNLoop_eq (segs : List GoString) (buf : List Nat) :
    ParseDNLoop buf segs
      = buf ++ (segs.map (fun seg => seg.length % 256 :: seg)).flatten := by
  induction segs generalizing buf with
  | nil => simp [ParseDNLoop]
  | cons seg segs ih => simp [ParseDNLoop, ih]

theorem ParseDN_joinDot (labels : List GoString) (hne : labels ≠ [])
    (hdot : ∀ l ∈ labels, dot ∉ l) (hlen : ∀ l ∈ labels, l.length ≤ 255) :
    ParseDN (joinDot labels) = encodeLabels labels ++ [0] := by
  unfold ParseDN
  rw [splitDot_joinDot labels hne hdot, ParseDNLoop_eq]
  simp only [List.nil_append, encodeLabels]
  congr 2
  apply List.map_congr_left
  intro l hl
  have := hlen l hl
  rw [Nat.mod_eq_of_lt (by omega)]

theorem Slice.index_at (pre rest spare : List Nat) (b i : Nat)
    (hi : i = pre.length) :
    Slice.index ⟨pre ++ b :: rest, spare⟩ i = .ok b := by
  subst hi
  have h : (pre ++ b :: rest)[pre.length]? = some b := by
    rw [List.getElem?_append_right (Nat.le_refl _)]
    simp
  simp only [Slice.index, h]

theorem Slice.slice_at (pre mid rest spare : List Nat) (lo hi : Nat)
    (hlo : lo = pre.length) (hhi : hi = pre.length + mid.length) :
    Slice.slice ⟨pre ++ mid ++ rest, spare⟩ lo hi = .ok ⟨mid, rest ++ spare⟩ := by
  subst hlo hhi
  simp [Slice.slice, Slice.cap, Slice.mem]
  omega

theorem getDNLoop_labels (labels : List GoString) :
    ∀ (pre rest spare : List Nat) (fuel : Nat) (dn : GoString),
      (∀ l ∈ labels, 1 ≤ l.length) → labels.length < fuel →
      getDNLoop ⟨pre ++ encodeLabels labels ++ 0 :: rest, spare⟩ fuel pre.length dn
        = .ok (dn ++ (labels.map (fun l => l ++ [dot])).flatten) := by
  induction labels with
  | nil =>
    intro pre rest spare fuel dn _ hf
    obtain ⟨f, rfl⟩ : ∃ f, fuel = f + 1 := ⟨fuel - 1, by simp at hf; omega⟩
    have hidx := Slice.index_at pre rest spare 0 pre.length rfl
    simp only [encodeLabels, List.map_nil, List.flatten_nil, List.append_nil, getDNLoop]
    rw [hidx]
    simp [Slice.len, bind, Except.bind]
  | cons l ls ih =>
    intro pre rest spare fuel dn hl hf
    obtain ⟨f, rfl⟩ : ∃ f, fuel = f + 1 := ⟨fuel - 1, by simp at hf; omega⟩
    have hl1 : 1 ≤ l.length := hl l (by simp)
    have hE : pre ++ encodeLabels (l :: ls) ++ 0 :: rest
        = (pre ++ [l.length] ++ l) ++ encodeLabels ls ++ 0 :: rest := by
      simp [encodeLabels]
    have hidx : Slice.index ⟨pre ++ encodeLabels (l :: ls) ++ 0 :: rest, spare⟩ pre.length
        = .ok l.length := by
      have := Slice.index_at pre (l ++ encodeLabels ls ++ 0 :: rest) spare l.length pre.length rfl
      simpa [encodeLabels] using this
    have hsl : Slice.slice ⟨pre ++ encodeLabels (l :: ls) ++ 0 :: rest, spare⟩
        (pre.length + 1) (pre.length + l.length + 1)
        = .ok ⟨l, (encodeLabels ls ++ 0 :: rest) ++ spare⟩ := by
      have := Slice.slice_at (pre ++ [l.length]) l (encodeLabels ls ++ 0 :: rest) spare
        (pre.length + 1) (pre.length + l.length + 1) (by simp) (by simp; omega)
      simpa [encodeLabels] using this
    have hrec := ih (pre ++ [l.length] ++ l) rest spare f (dn ++ l ++ [dot])
      (fun x hx => hl x (by simp [hx])) (by simp at hf; omega)
    rw [← hE] at hrec
    have hlen' : (pre ++ [l.length] ++ l).length = pre.length + 1 + l.length := by
      simp; omega
    rw [hlen'] at hrec
    rw [getDNLoop, hidx]
    have hlt : ¬ (pre.length ≥ Slice.len ⟨pre ++ encodeLabels (l :: ls) ++ 0 :: rest, spare⟩) := by
      simp [Slice.len]
    have hle : ¬ (pre.length + 1 + l.length > Slice.len ⟨pre ++ encodeLabels (l :: ls) ++ 0 :: rest, spare⟩) := by
      simp [Slice.len, encodeLabels]; omega
    have hl0 : l.length ≠ 0 := by omega
    simp only [hlt, hle, if_false, bind, Except.bind, hl0, hsl, hrec]
    simp


theorem flatten_map_dot (labels : List GoString) (hne : labels ≠ []) :
    (labels.map (fun l => l ++ [dot])).flatten = joinDot labels ++ [dot] := by
  induction labels with
  | nil => exact absurd rfl hne
  | cons l ls ih =>
    cases ls with
    | nil => simp [joinDot]
    | cons m ms =>
      have h := ih (by simp)
      rw [List.map_cons, List.flatten_cons, h]
      simp [joinDot]

theorem joinDot_starts (l : GoString) (ls : List GoString) :
    ∃ t, joinDot (l :: ls) = l ++ t := by
  cases ls with
  | nil => exact ⟨[], by simp [joinDot]⟩
  | cons m ms => exact ⟨dot :: joinDot (m :: ms), by simp [joinDot]⟩

theorem joinDot_ends (labels : List GoString) (hne : labels ≠ []) :
    ∃ p l, l ∈ labels ∧ joinDot labels = p ++ l := by
  induction labels with
  | nil => exact absurd rfl hne
  | cons l ls ih =>
    cases ls with
    | nil => exact ⟨[], l, by simp, by simp [joinDot]⟩
    | cons m ms =>
      obtain ⟨p, x, hx, hp⟩ := ih (by simp)
      exact ⟨l ++ dot :: p, x, by simp [hx], by simp [joinDot, hp]⟩

theorem trimDot_append_dot (s : GoString) (c c2 : Nat) (t t2 : List Nat)
    (hs : s = c :: t) (hc : c ≠ dot) (hr : s.reverse = c2 :: t2)
    (hc2 : c2 ≠ dot) : trimDot (s ++ [dot]) = s := by
  unfold trimDot
  have h1 : (s ++ [dot]).dropWhile (· = dot) = s ++ [dot] := by
    rw [hs]; simp [List.dropWhile, hc]
  rw [h1, List.reverse_append, hr]
  simp [List.dropWhile, hc2]
  have h2 := congrArg List.reverse hr
  simp only [List.reverse_reverse, List.reverse_cons] at h2
  exact h2.symm

theorem trimDot_labels (labels : List GoString) (hne : labels ≠ [])
    (hlen : ∀ l ∈ labels, 1 ≤ l.length) (hdot : ∀ l ∈ labels, dot ∉ l) :
    trimDot ((labels.map (fun l => l ++ [dot])).flatten) = joinDot labels := by
  rw [flatten_map_dot labels hne]
  obtain ⟨l, ls, rfl⟩ : ∃ l ls, labels = l :: ls := by
    cases labels with
    | nil => exact absurd rfl hne
    | cons l ls => exact ⟨l, ls, rfl⟩
  obtain ⟨t, ht⟩ := joinDot_starts l ls
  obtain ⟨p, x, hx, hp⟩ := joinDot_ends (l :: ls) hne
  obtain ⟨c, cs, rfl⟩ : ∃ c cs, l = c :: cs := by
    cases l with
    | nil => have := hlen [] (by simp); simp at this
    | cons c cs => exact ⟨c, cs, rfl⟩
  have hxne : x.reverse ≠ [] := by
    have := hlen x hx
    intro h
    rw [List.reverse_eq_nil_iff] at h
    rw [h] at this; simp at this
  obtain ⟨c2, t2, hx2⟩ : ∃ c2 t2, x.reverse = c2 :: t2 := by
    cases hxr : x.reverse with
    | nil => exact absurd hxr hxne
    | cons a b => exact ⟨a, b, rfl⟩
  have hc : c ≠ dot := fun h => hdot (c :: cs) (by simp) (by simp [h])
  have hc2 : c2 ≠ dot := by
    intro h
    apply hdot x hx
    have : c2 ∈ x.reverse := by rw [hx2]; simp
    rw [← h]
    exact List.mem_reverse.mp this
  apply trimDot_append_dot (joinDot ((c :: cs) :: ls)) c c2 (cs ++ t) (t2 ++ p.reverse)
    (by rw [ht]; simp) hc (by rw [hp, List.reverse_append, hx2]; simp) hc2

theorem getDN_labels (labels : List GoString) (rest spare : List Nat)
    (hlen : ∀ l ∈ labels, 1 ≤ l.length) :
    getDN ⟨encodeLabels labels ++ 0 :: rest, spare⟩
      = .ok (trimDot ((labels.map (fun l => l ++ [dot])).flatten)) := by
  have h := getDNLoop_labels labels [] rest spare
    ((Slice.len ⟨encodeLabels labels ++ 0 :: rest, spare⟩) + 1) [] hlen
    (by
      have : labels.length ≤ (encodeLabels labels).length := by
        clear hlen
        induction labels with
        | nil => simp
        | cons l ls ih => simp [encodeLabels] at ih ⊢; omega
      simp [Slice.len]; omega)
  simp only [List.nil_append, List.length_nil] at h
  unfold getDN
  rw [h]
  rfl

/-- C1. For every name that is the "."-joined sequence of one or more labels,
each 1 to 63 bytes long and without a "." byte, getDN applied to the slice
ParseDN returns (whatever its spare capacity) gives the name back. -/
theorem getDN_ParseDN_round_trip (labels : List GoString) (spare : List Nat)
    (hne : labels ≠ [])
    (hlen : ∀ l ∈ labels, 1 ≤ l.length ∧ l.length ≤ 63)
    (hdot : ∀ l ∈ labels, dot ∉ l) :
    getDN ⟨ParseDN (joinDot labels), spare⟩ = .ok (joinDot labels) := by
  rw [ParseDN_joinDot labels hne hdot (fun l hl => by have := hlen l hl; omega)]
  rw [getDN_labels labels [] spare (fun l hl => (hlen l hl).1)]
  rw [trimDot_labels labels hne (fun l hl => (hlen l hl).1) hdot]

theorem getDN_ParseDN_round_trip_witness :
    joinDot [ascii "example", ascii "com"] = ascii "example.com"
      ∧ getDN ⟨ParseDN (ascii "example.com"), []⟩ = .ok (ascii "example.com") :=
  ⟨by decide,
   getDN_ParseDN_round_trip [ascii "example", ascii "com"] [] (by decide)
     (by decide) (by decide)⟩


theorem SetFlag_round_trip_witness :
    (((Header.mk 0xFFFF 0 1 0 0 0).SetFlag 1 2 0 0 1 1 3).Flag >>> 15 &&& 1 = 1
      ∧ ((Header.mk 0xFFFF 0 1 0 0 0).SetFlag 1 2 0 0 1 1 3).Flag >>> 11 &&& 15 = 2
      ∧ ((Header.mk 0xFFFF 0 1 0 0 0).SetFlag 1 2 0 0 1 1 3).Flag >>> 10 &&& 1 = 0
      ∧ ((Header.mk 0xFFFF 0 1 0 0 0).SetFlag 1 2 0 0 1 1 3).Flag >>> 9 &&& 1 = 0
      ∧ ((Header.mk 0xFFFF 0 1 0 0 0).SetFlag 1 2 0 0 1 1 3).Flag >>> 8 &&& 1 = 1
      ∧ ((Header.mk 0xFFFF 0 1 0 0 0).SetFlag 1 2 0 0 1 1 3).Flag >>> 7 &&& 1 = 1
      ∧ ((Header.mk 0xFFFF 0 1 0 0 0).SetFlag 1 2 0 0 1 1 3).Flag &&& 15 = 3)
    ∧ ∀ (k : Header) (qr2 opcode2 aa2 tc2 rd2 ra2 rcode2 : Nat),
        qr2 < 2 → opcode2 < 16 → aa2 < 2 → tc2 < 2 → rd2 < 2 → ra2 < 2 →
        rcode2 < 16 →
        (k.SetFlag qr2 opcode2 aa2 tc2 rd2 ra2 rcode2).Flag
          = ((Header.mk 0xFFFF 0 1 0 0 0).SetFlag 1 2 0 0 1 1 3).Flag →
        qr2 = 1 ∧ opcode2 = 2 ∧ aa2 = 0 ∧ tc2 = 0 ∧ rd2 = 1
          ∧ ra2 = 1 ∧ rcode2 = 3 :=
  SetFlag_round_trip (Header.mk 0xFFFF 0 1 0 0 0) 1 2 0 0 1 1 3
    (by decide) (by decide) (by decide) (by decide) (by decide) (by decide)
    (by decide)

/-- C2. For every name dn the request DigDN assembles is the 12 header bytes
FF FF 00 00 00 01 00 00 00 00 00 00, then ParseDN(dn), then 00 01 00 01; for
"example.com" it is the 29 bytes listed. -/
theorem DigDNRequest_bytes :
    (∀ dn : GoString, DigDNRequest dn
        = [0xFF, 0xFF, 0, 0, 0, 1, 0, 0, 0, 0, 0, 0] ++ ParseDN dn ++ [0, 1, 0, 1])
      ∧ DigDNRequest (ascii "example.com")
        = [0xFF, 0xFF, 0x00, 0x00, 0x00, 0x01, 0x00, 0x00, 0x00, 0x00, 0x00, 0x00,
           0x07, 0x65, 0x78, 0x61, 0x6D, 0x70, 0x6C, 0x65, 0x03, 0x63, 0x6F, 0x6D,
           0x00, 0x00, 0x01, 0x00, 0x01] := by
  refine ⟨fun dn => ?_, by decide⟩
  rfl

/-- C10, as the code has it. ParseDN has no failure result: for every name it
returns, for each segment, the byte len(seg) mod 256 and the bytes of the
segment, then a zero byte. When every segment is at most 63 bytes long each
length byte is the length of its segment, and at most 63. -/
theorem ParseDN_length_bytes (dn : GoString) :
    ParseDN dn
        = ((splitDot dn).map (fun seg => seg.length % 256 :: seg)).flatten ++ [0]
      ∧ ((∀ seg ∈ splitDot dn, seg.length ≤ 63) →
          ParseDN dn = encodeLabels (splitDot dn) ++ [0]
            ∧ ∀ seg ∈ splitDot dn, seg.length % 256 = seg.length
                ∧ seg.length % 256 ≤ 63) := by
  have h1 : ParseDN dn
      = ((splitDot dn).map (fun seg => seg.length % 256 :: seg)).flatten ++ [0] := by
    unfold ParseDN
    rw [ParseDNLoop_eq]
    rfl
  refine ⟨h1, fun h => ⟨?_, ?_⟩⟩
  · rw [h1, encodeLabels]
    congr 2
    apply List.map_congr_left
    intro seg hseg
    have := h seg hseg
    rw [Nat.mod_eq_of_lt (by omega)]
  · intro seg hseg
    have := h seg hseg
    rw [Nat.mod_eq_of_lt (by omega)]
    exact ⟨rfl, this⟩

theorem ParseDN_length_bytes_witness :
    ParseDN (ascii "example.com") = encodeLabels (splitDot (ascii "example.com")) ++ [0]
      ∧ ∀ seg ∈ splitDot (ascii "example.com"), seg.length % 256 = seg.length
          ∧ seg.length % 256 ≤ 63 :=
  (ParseDN_length_bytes (ascii "example.com")).2 (by decide)

/-- C10 as stated fails: the name of one 64-byte segment has a segment longer
than 63 bytes, and ParseDN returns an encoding of it whose first byte, the
length byte, is 64. -/
theorem ParseDN_long_label_encoded :
    (∃ seg ∈ splitDot (List.replicate 64 97), 63 < seg.length)
      ∧ ParseDN (List.replicate 64 97) = 64 :: (List.replicate 64 97 ++ [0])
      ∧ (ParseDN (List.replicate 64 97))[0]? = some 64 ∧ ¬ 64 ≤ 63 := by
  decide

/-! ## Slices -/

theorem Slice.index_cases (s : Slice) (i : Nat) :
    (∃ b, s.index i = .ok b) ∨ s.index i = .error .panic := by
  unfold Slice.index
  cases s.elems[i]? with
  | none => exact Or.inr rfl
  | some b => exact Or.inl ⟨b, rfl⟩

theorem Slice.index_past_end (s : Slice) (i : Nat) (h : s.elems.length ≤ i) :
    s.index i = .error .panic := by
  unfold Slice.index
  rw [List.getElem?_eq_none h]

/-! ## Short buffers -/

/-- C7, as the code has it. For every buffer of fewer than 12 bytes
dnsResDecode returns nothing: it has no error result, and the call ends in a
run-time panic (the slice expression buf[12:] is out of range, or already
buf[:12] when the capacity is below 12 as well). -/
theorem dnsResDecode_short_buffer_panics (buf : Slice) (h : buf.len < 12) :
    dnsResDecode buf = .error .panic := by
  have hfrom : buf.sliceFrom 12 = .error .panic := by
    unfold Slice.sliceFrom Slice.slice
    rw [if_neg (by omega)]
  unfold dnsResDecode
  cases hto : buf.sliceTo 12 with
  | error e =>
    unfold Slice.sliceTo Slice.slice at hto
    split at hto
    · cases hto
    · cases hto; rfl
  | ok header =>
    rcases Slice.index_cases header 4 with ⟨b4, h4⟩ | h4 <;>
    rcases Slice.index_cases header 5 with ⟨b5, h5⟩ | h5 <;>
    rcases Slice.index_cases header 6 with ⟨b6, h6⟩ | h6 <;>
    rcases Slice.index_cases header 7 with ⟨b7, h7⟩ | h7 <;>
    simp [bind, Except.bind, h4, h5, h6, h7, hfrom]

theorem dnsResDecode_short_buffer_panics_witness :
    Slice.len ⟨[0xFF, 0xFF, 0x81, 0x80, 0, 1], [0, 0, 0, 0, 0, 0, 0, 0]⟩ < 12
      ∧ dnsResDecode ⟨[0xFF, 0xFF, 0x81, 0x80, 0, 1], [0, 0, 0, 0, 0, 0, 0, 0]⟩
          = .error .panic :=
  ⟨by decide, dnsResDecode_short_buffer_panics _ (by decide)⟩

/-- C7 as stated fails: on the empty buffer dnsResDecode does not fail with a
decode error handed to its caller, the call ends in a run-time panic. -/
theorem dnsResDecode_empty_buffer_panics :
    Slice.len ⟨[], []⟩ < 12 ∧ dnsResDecode ⟨[], []⟩ = .error .panic := by
  decide

/-! ## Records with a name that is not two bytes long, and CNAME records -/

/-- C4, the code at a CNAME record. The record has the owner name C0 0C,
TYPE 5 and the RDATA 03 "www" 00, the encoding of "www". getAnswer does not
return "www": it runs getDN on the whole record, which takes the first owner
byte C0 as a label length and returns the rest of the record. -/
theorem getAnswer_cname_decodes_record_start :
    getDN ⟨[3, 119, 119, 119, 0], []⟩ = .ok (ascii "www")
      ∧ getAnswer ⟨[0xC0, 0x0C, 0, 5, 0, 1, 0, 0, 0, 60, 0, 5, 3, 119, 119, 119, 0], []⟩
          = .ok [0x0C, 0, 5, 0, 1, 0, 0, 0, 60, 0, 5, 3, 119, 119, 119, 0]
      ∧ getAnswer ⟨[0xC0, 0x0C, 0, 5, 0, 1, 0, 0, 0, 60, 0, 5, 3, 119, 119, 119, 0], []⟩
          ≠ .ok (ascii "www")
      ∧ dnsResDecode ⟨[0xFF, 0xFF, 0x81, 0x80, 0, 1, 0, 1, 0, 0, 0, 0,
            1, 97, 0, 0, 1, 0, 1,
            0xC0, 0x0C, 0, 5, 0, 1, 0, 0, 0, 60, 0, 5, 3, 119, 119, 119, 0], []⟩
          = .ok ([ascii "a"],
              [[0x0C, 0, 5, 0, 1, 0, 0, 0, 60, 0, 5, 3, 119, 119, 119, 0]], []) := by
  decide

/-! ## The walk over the answer section -/

theorem u16_be16 (v : Nat) : u16 (v / 256 % 256) (v % 256) = v % 65536 := by
  unfold u16
  simp only [Nat.shiftLeft_eq]
  omega

theorem answerStep_fixed_offsets_aux (data : Slice) (start d0 d1 : Nat)
    (h0 : data.index (start + 10) = .ok d0)
    (h1 : data.index (start + 11) = .ok d1)
    (hcap : start + 12 + u16 d0 d1 ≤ data.cap) :
    answerStep data start
        = .ok (⟨(data.mem.drop start).take (12 + u16 d0 d1),
                data.mem.drop (start + 12 + u16 d0 d1)⟩,
               start + 12 + u16 d0 d1) := by
  unfold answerStep
  have e0 : start + 2 + 2 + 2 + 4 = start + 10 := by omega
  have e1 : start + 2 + 2 + 2 + 4 + 1 = start + 11 := by omega
  have e2 : start + (2 + 2 + 2 + 4 + 2) - 1 + u16 d0 d1 + 1
      = start + 12 + u16 d0 d1 := by omega
  simp only [e0, e1, h0, h1, bind, Except.bind, e2]
  unfold Slice.slice
  rw [if_pos ⟨by omega, hcap⟩]
  have e3 : start + 12 + u16 d0 d1 - start = 12 + u16 d0 d1 := by omega
  rw [e3]

/-- C5, as the code has it. dnsResDecode takes the owner-name field of every
answer record to be two bytes long: from the record start it reads the data
length in bytes 10 and 11, and the record it consumes is the 12 + dataLength
bytes from the start, the next record starting right after it. -/
theorem answerStep_fixed_offsets (data : Slice) (start d0 d1 : Nat)
    (h0 : data.index (start + 10) = .ok d0)
    (h1 : data.index (start + 11) = .ok d1)
    (hcap : start + 12 + u16 d0 d1 ≤ data.cap) :
    answerStep data start
        = .ok (⟨(data.mem.drop start).take (12 + u16 d0 d1),
                data.mem.drop (start + 12 + u16 d0 d1)⟩,
               start + 12 + u16 d0 d1)
      ∧ ((data.mem.drop start).take (12 + u16 d0 d1)).length = 12 + u16 d0 d1 := by
  have hmem : data.mem.length = data.cap := by
    simp [Slice.mem, Slice.cap]
  refine ⟨answerStep_fixed_offsets_aux data start d0 d1 h0 h1 hcap, ?_⟩
  rw [List.length_take, List.length_drop, hmem]
  omega

theorem answerStep_fixed_offsets_witness :
    answerStep ⟨[0xC0, 0x0C, 0, 1, 0, 1, 0, 0, 0, 60, 0, 4, 192, 168, 0, 1, 7], [9]⟩ 0
        = .ok (⟨[0xC0, 0x0C, 0, 1, 0, 1, 0, 0, 0, 60, 0, 4, 192, 168, 0, 1], [7, 9]⟩, 16)
      ∧ [0xC0, 0x0C, 0, 1, 0, 1, 0, 0, 0, 60, 0, 4, 192, 168, 0, 1].length = 16 :=
  answerStep_fixed_offsets
    ⟨[0xC0, 0x0C, 0, 1, 0, 1, 0, 0, 0, 60, 0, 4, 192, 168, 0, 1, 7], [9]⟩ 0 0 4
    (by decide) (by decide) (by decide)

/-- C5 as stated fails: an answer record whose owner name is the label
sequence 01 "a" 00 (3 bytes), followed by type, class, TTL, the data length 4
and 4 data bytes, is 3 + 10 + 4 = 17 bytes long. dnsResDecode reads the data
length in bytes 10 and 11 of the record (a TTL byte and the high length
byte), consumes 12 bytes and puts the next record at 12. -/
theorem answerStep_three_byte_name :
    answerStep ⟨[1, 97, 0, 0, 1, 0, 1, 0, 0, 0, 0, 0, 4, 10, 0, 0, 1], []⟩ 0
        = .ok (⟨[1, 97, 0, 0, 1, 0, 1, 0, 0, 0, 0, 0], [4, 10, 0, 0, 1]⟩, 12)
      ∧ 12 ≠ 3 + 10 + 4
      ∧ dnsResDecode ⟨[0xFF, 0xFF, 0x81, 0x80, 0, 0, 0, 1, 0, 0, 0, 0,
            1, 97, 0, 0, 1, 0, 1, 0, 0, 0, 0, 0, 4, 10, 0, 0, 1], []⟩
          = .ok ([], [[]], []) := by
  decide

/-! ## The walk over the question section -/

theorem skipLabels_labels (labels : List GoString) :
    ∀ (pre rest spare : List Nat) (fuel : Nat),
      (∀ l ∈ labels, 1 ≤ l.length) → labels.length < fuel →
      skipLabels ⟨pre ++ encodeLabels labels ++ 0 :: rest, spare⟩ fuel pre.length
        = .ok (pre.length + (encodeLabels labels).length) := by
  induction labels with
  | nil =>
    intro pre rest spare fuel _ hf
    obtain ⟨f, rfl⟩ : ∃ f, fuel = f + 1 := ⟨fuel - 1, by simp at hf; omega⟩
    have hidx := Slice.index_at pre rest spare 0 pre.length rfl
    simp only [encodeLabels, List.map_nil, List.flatten_nil, List.append_nil,
      skipLabels, hidx, bind, Except.bind]
    simp
  | cons l ls ih =>
    intro pre rest spare fuel hl hf
    obtain ⟨f, rfl⟩ : ∃ f, fuel = f + 1 := ⟨fuel - 1, by simp at hf; omega⟩
    have hl1 : 1 ≤ l.length := hl l (by simp)
    have hE : pre ++ encodeLabels (l :: ls) ++ 0 :: rest
        = (pre ++ [l.length] ++ l) ++ encodeLabels ls ++ 0 :: rest := by
      simp [encodeLabels]
    have hidx : Slice.index ⟨pre ++ encodeLabels (l :: ls) ++ 0 :: rest, spare⟩ pre.length
        = .ok l.length := by
      have := Slice.index_at pre (l ++ encodeLabels ls ++ 0 :: rest) spare l.length
        pre.length rfl
      simpa [encodeLabels] using this
    have hrec := ih (pre ++ [l.length] ++ l) rest spare f
      (fun x hx => hl x (by simp [hx])) (by simp at hf; omega)
    rw [← hE] at hrec
    have hlen2 : (pre ++ [l.length] ++ l).length = pre.length + 1 + l.length := by
      simp; omega
    rw [hlen2] at hrec
    have hl0 : l.length ≠ 0 := by omega
    rw [skipLabels]
    simp only [hidx, bind, Except.bind, hl0, if_false, hrec]
    simp [encodeLabels]; omega

theorem skipLabels_cut (labels : List GoString) :
    ∀ (pre cut spare : List Nat) (fuel : Nat),
      (∀ l ∈ labels, 1 ≤ l.length) → cutLabel cut → labels.length < fuel →
      (cut ≠ [] → labels.length + 1 < fuel) →
      skipLabels ⟨pre ++ encodeLabels labels ++ cut, spare⟩ fuel pre.length
        = .error .panic := by
  induction labels with
  | nil =>
    intro pre cut spare fuel _ hcut hf hf2
    cases cut with
    | nil =>
      obtain ⟨f, rfl⟩ : ∃ f, fuel = f + 1 := ⟨fuel - 1, by simp at hf; omega⟩
      have hidx : Slice.index ⟨pre ++ encodeLabels [] ++ [], spare⟩ pre.length
          = .error .panic := Slice.index_past_end _ _ (by simp [encodeLabels])
      rw [skipLabels]
      simp only [hidx, bind, Except.bind]
    | cons c bytes =>
      obtain ⟨f, rfl⟩ : ∃ f, fuel = f + 2 :=
        ⟨fuel - 2, by have := hf2 (by simp); simp at this; omega⟩
      have hc : bytes.length < c := hcut
      have hidx : Slice.index ⟨pre ++ encodeLabels [] ++ c :: bytes, spare⟩ pre.length
          = .ok c := by
        have := Slice.index_at pre bytes spare c pre.length rfl
        simpa [encodeLabels] using this
      have hidx2 : Slice.index ⟨pre ++ encodeLabels [] ++ c :: bytes, spare⟩
          (pre.length + 1 + c) = .error .panic :=
        Slice.index_past_end _ _ (by simp [encodeLabels]; omega)
      have hc0 : c ≠ 0 := by omega
      rw [skipLabels]
      simp only [hidx, bind, Except.bind, hc0, if_false]
      rw [skipLabels]
      simp only [hidx2, bind, Except.bind]
  | cons l ls ih =>
    intro pre cut spare fuel hl hcut hf hf2
    obtain ⟨f, rfl⟩ : ∃ f, fuel = f + 1 := ⟨fuel - 1, by simp at hf; omega⟩
    have hl1 : 1 ≤ l.length := hl l (by simp)
    have hE : pre ++ encodeLabels (l :: ls) ++ cut
        = (pre ++ [l.length] ++ l) ++ encodeLabels ls ++ cut := by
      simp [encodeLabels]
    have hidx : Slice.index ⟨pre ++ encodeLabels (l :: ls) ++ cut, spare⟩ pre.length
        = .ok l.length := by
      have := Slice.index_at pre (l ++ encodeLabels ls ++ cut) spare l.length
        pre.length rfl
      simpa [encodeLabels] using this
    have hrec := ih (pre ++ [l.length] ++ l) cut spare f
      (fun x hx => hl x (by simp [hx])) hcut (by simp at hf; omega)
      (fun hne => by have := hf2 hne; simp at this; omega)
    rw [← hE] at hrec
    have hlen2 : (pre ++ [l.length] ++ l).length = pre.length + 1 + l.length := by
      simp; omega
    rw [hlen2] at hrec
    have hl0 : l.length ≠ 0 := by omega
    rw [skipLabels]
    simp only [hidx, bind, Except.bind, hl0, if_false, hrec]

theorem encodeLabels_length_ge (labels : List GoString) :
    labels.length ≤ (encodeLabels labels).length := by
  induction labels with
  | nil => simp
  | cons l ls ih => simp [encodeLabels] at ih ⊢; omega

theorem questionStep_wire (q : Question) (pre post spare : List Nat) (hq : q.wf) :
    questionStep ⟨pre ++ q.wire ++ post, spare⟩ pre.length
      = .ok (⟨q.wire, post ++ spare⟩, pre.length + q.wire.length) := by
  obtain ⟨hl, hf⟩ := hq
  have hge := encodeLabels_length_ge q.labels
  have hE : pre ++ q.wire ++ post
      = pre ++ encodeLabels q.labels ++ 0 :: (q.fixed ++ post) := by
    simp [Question.wire]
  have hskip := skipLabels_labels q.labels pre (q.fixed ++ post) spare
    (Slice.len ⟨pre ++ q.wire ++ post, spare⟩ + 1) hl
    (by simp [Slice.len, Question.wire]; omega)
  rw [← hE] at hskip
  have hwl : q.wire.length = (encodeLabels q.labels).length + 4 + 1 := by
    simp [Question.wire, hf]
  have hsl := Slice.slice_at pre q.wire post spare pre.length
    (pre.length + (encodeLabels q.labels).length + 4 + 1) rfl (by omega)
  unfold questionStep
  simp only [hskip, bind, Except.bind, hsl]
  rw [hwl]
  rfl

theorem questionStep_cut (labels : List GoString) (pre cut spare : List Nat)
    (hl : ∀ l ∈ labels, 1 ≤ l.length) (hcut : cutLabel cut) :
    questionStep ⟨pre ++ encodeLabels labels ++ cut, spare⟩ pre.length
      = .error .panic := by
  have hge := encodeLabels_length_ge labels
  have hskip := skipLabels_cut labels pre cut spare
    (Slice.len ⟨pre ++ encodeLabels labels ++ cut, spare⟩ + 1) hl hcut
    (by simp [Slice.len]; omega)
    (fun hne => by
      have : 1 ≤ cut.length := by
        cases cut with
        | nil => exact absurd rfl hne
        | cons c bytes => simp
      simp [Slice.len]; omega)
  unfold questionStep
  simp only [hskip, bind, Except.bind]


theorem questionLoop_wires (qs : List Question) :
    ∀ (pre post spare : List Nat), (∀ q ∈ qs, q.wf) →
      questionLoop ⟨pre ++ (qs.map Question.wire).flatten ++ post, spare⟩
          qs.length pre.length
        = .ok (sectionSlices (qs.map Question.wire) (post ++ spare),
            pre.length + ((qs.map Question.wire).flatten).length) := by
  induction qs with
  | nil =>
    intro pre post spare _
    simp [questionLoop, sectionSlices]
  | cons q qs ih =>
    intro pre post spare hwf
    have hE : pre ++ ((q :: qs).map Question.wire).flatten ++ post
        = pre ++ q.wire ++ ((qs.map Question.wire).flatten ++ post) := by
      simp
    have hE2 : pre ++ ((q :: qs).map Question.wire).flatten ++ post
        = (pre ++ q.wire) ++ (qs.map Question.wire).flatten ++ post := by
      simp
    have hstep := questionStep_wire q pre ((qs.map Question.wire).flatten ++ post)
      spare (hwf q (by simp))
    rw [← hE] at hstep
    have hrec := ih (pre ++ q.wire) post spare (fun x hx => hwf x (by simp [hx]))
    rw [← hE2, List.length_append] at hrec
    rw [List.length_cons, questionLoop]
    simp only [hstep, bind, Except.bind, hrec]
    simp [sectionSlices]
    omega

theorem questionLoop_cut (qs : List Question) :
    ∀ (pre : List Nat) (labels : List GoString) (cut spare : List Nat) (count : Nat),
      (∀ q ∈ qs, q.wf) → (∀ l ∈ labels, 1 ≤ l.length) → cutLabel cut →
      qs.length < count →
      questionLoop
          ⟨pre ++ (qs.map Question.wire).flatten ++ (encodeLabels labels ++ cut), spare⟩
          count pre.length
        = .error .panic := by
  induction qs with
  | nil =>
    intro pre labels cut spare count _ hl hcut hc
    obtain ⟨c, rfl⟩ : ∃ c, count = c + 1 := ⟨count - 1, by simp at hc; omega⟩
    have hE : pre ++ (([] : List Question).map Question.wire).flatten
        ++ (encodeLabels labels ++ cut) = pre ++ encodeLabels labels ++ cut := by
      simp
    have hstep := questionStep_cut labels pre cut spare hl hcut
    rw [← hE] at hstep
    rw [questionLoop]
    simp only [hstep, bind, Except.bind]
  | cons q qs ih =>
    intro pre labels cut spare count hwf hl hcut hc
    obtain ⟨c, rfl⟩ : ∃ c, count = c + 1 := ⟨count - 1, by simp at hc; omega⟩
    have hE : pre ++ ((q :: qs).map Question.wire).flatten
          ++ (encodeLabels labels ++ cut)
        = pre ++ q.wire
          ++ ((qs.map Question.wire).flatten ++ (encodeLabels labels ++ cut)) := by
      simp
    have hE2 : pre ++ ((q :: qs).map Question.wire).flatten
          ++ (encodeLabels labels ++ cut)
        = (pre ++ q.wire) ++ (qs.map Question.wire).flatten
          ++ (encodeLabels labels ++ cut) := by
      simp
    have hstep := questionStep_wire q pre
      ((qs.map Question.wire).flatten ++ (encodeLabels labels ++ cut)) spare
      (hwf q (by simp))
    rw [← hE] at hstep
    have hrec := ih (pre ++ q.wire) labels cut spare c
      (fun x hx => hwf x (by simp [hx])) hl hcut (by simp at hc; omega)
    rw [← hE2, List.length_append] at hrec
    rw [questionLoop]
    simp only [hstep, bind, Except.bind, hrec]

theorem collectQuerys_wires (qs : List Question) (after : List Nat)
    (hwf : ∀ q ∈ qs, q.wf) :
    collectQuerys (sectionSlices (qs.map Question.wire) after)
      = .ok (qs.map Question.name) := by
  induction qs with
  | nil => simp [sectionSlices, collectQuerys]
  | cons q qs ih =>
    have h1 : getQuery ⟨q.wire, (qs.map Question.wire).flatten ++ after⟩
        = .ok q.name :=
      getDN_labels q.labels q.fixed _ (hwf q (by simp)).1
    have h2 := ih (fun x hx => hwf x (by simp [hx]))
    simp only [List.map_cons, sectionSlices, collectQuerys, h1, h2, bind, Except.bind]

/-! ## The walk over records with a two-byte owner-name field -/

theorem answerStep_wire (r : Record) (pre post spare : List Nat)
    (hr : r.rdata.length < 65536) :
    answerStep ⟨pre ++ r.wire ++ post, spare⟩ pre.length
      = .ok (⟨r.wire, post ++ spare⟩, pre.length + r.wire.length) := by
  have h0 : Slice.index ⟨pre ++ r.wire ++ post, spare⟩ (pre.length + 10)
      = .ok (r.rdata.length / 256 % 256) := by
    have := Slice.index_at
      (pre ++ [r.name0, r.name1, r.type0, r.type1, r.class0, r.class1,
        r.ttl0, r.ttl1, r.ttl2, r.ttl3])
      ([r.rdata.length % 256] ++ r.rdata ++ post) spare
      (r.rdata.length / 256 % 256) (pre.length + 10) (by simp)
    simpa [Record.wire, be16] using this
  have h1 : Slice.index ⟨pre ++ r.wire ++ post, spare⟩ (pre.length + 11)
      = .ok (r.rdata.length % 256) := by
    have := Slice.index_at
      (pre ++ [r.name0, r.name1, r.type0, r.type1, r.class0, r.class1,
        r.ttl0, r.ttl1, r.ttl2, r.ttl3, r.rdata.length / 256 % 256])
      (r.rdata ++ post) spare
      (r.rdata.length % 256) (pre.length + 11) (by simp)
    simpa [Record.wire, be16] using this
  have hu : u16 (r.rdata.length / 256 % 256) (r.rdata.length % 256)
      = r.rdata.length := by
    rw [u16_be16, Nat.mod_eq_of_lt hr]
  have hwl : r.wire.length = 12 + r.rdata.length := by
    simp [Record.wire, be16]; omega
  have hsl := Slice.slice_at pre r.wire post spare pre.length
    (pre.length + 12 + r.rdata.length) rfl (by omega)
  have hcap : pre.length + 12 + u16 (r.rdata.length / 256 % 256) (r.rdata.length % 256)
      ≤ Slice.cap ⟨pre ++ r.wire ++ post, spare⟩ := by
    rw [hu]; simp [Slice.cap, hwl]; omega
  have hfix := (answerStep_fixed_offsets_aux ⟨pre ++ r.wire ++ post, spare⟩ pre.length _ _
    h0 h1 hcap)
  rw [hfix, hu, hwl]
  unfold Slice.slice at hsl
  rw [if_pos ⟨by omega, by simp [Slice.cap, hwl]; omega⟩] at hsl
  have e3 : pre.length + 12 + r.rdata.length - pre.length = 12 + r.rdata.length := by
    omega
  rw [e3] at hsl
  injection hsl with hsl
  rw [hsl]
  congr 2
  omega


theorem answerStep_short (pre rest spare : List Nat) (hrest : rest.length < 12) :
    answerStep ⟨pre ++ rest, spare⟩ pre.length = .error .panic := by
  have h1 : Slice.index ⟨pre ++ rest, spare⟩ (pre.length + 2 + 2 + 2 + 4 + 1)
      = .error .panic :=
    Slice.index_past_end _ _ (by simp; omega)
  unfold answerStep
  rcases Slice.index_cases ⟨pre ++ rest, spare⟩ (pre.length + 2 + 2 + 2 + 4)
    with ⟨b, h0⟩ | h0
  · simp only [h0, h1, bind, Except.bind]
  · simp only [h0, bind, Except.bind]

theorem answerLoop_wires (rs : List Record) :
    ∀ (pre post spare : List Nat), (∀ r ∈ rs, r.rdata.length < 65536) →
      answerLoop ⟨pre ++ (rs.map Record.wire).flatten ++ post, spare⟩
          rs.length pre.length
        = .ok (sectionSlices (rs.map Record.wire) (post ++ spare),
            pre.length + ((rs.map Record.wire).flatten).length) := by
  induction rs with
  | nil =>
    intro pre post spare _
    simp [answerLoop, sectionSlices]
  | cons r rs ih =>
    intro pre post spare hwf
    have hE : pre ++ ((r :: rs).map Record.wire).flatten ++ post
        = pre ++ r.wire ++ ((rs.map Record.wire).flatten ++ post) := by
      simp
    have hE2 : pre ++ ((r :: rs).map Record.wire).flatten ++ post
        = (pre ++ r.wire) ++ (rs.map Record.wire).flatten ++ post := by
      simp
    have hstep := answerStep_wire r pre ((rs.map Record.wire).flatten ++ post)
      spare (hwf r (by simp))
    rw [← hE] at hstep
    have hrec := ih (pre ++ r.wire) post spare (fun x hx => hwf x (by simp [hx]))
    rw [← hE2, List.length_append] at hrec
    rw [List.length_cons, answerLoop]
    simp only [hstep, bind, Except.bind, hrec]
    simp [sectionSlices]
    omega

theorem answerLoop_short (rs : List Record) :
    ∀ (pre rest spare : List Nat) (count : Nat),
      (∀ r ∈ rs, r.rdata.length < 65536) → rest.length < 12 → rs.length < count →
      answerLoop ⟨pre ++ (rs.map Record.wire).flatten ++ rest, spare⟩
          count pre.length
        = .error .panic := by
  induction rs with
  | nil =>
    intro pre rest spare count _ hrest hc
    obtain ⟨c, rfl⟩ : ∃ c, count = c + 1 := ⟨count - 1, by simp at hc; omega⟩
    have hE : pre ++ (([] : List Record).map Record.wire).flatten ++ rest
        = pre ++ rest := by
      simp
    have hstep := answerStep_short pre rest spare hrest
    rw [← hE] at hstep
    rw [answerLoop]
    simp only [hstep, bind, Except.bind]
  | cons r rs ih =>
    intro pre rest spare count hwf hrest hc
    obtain ⟨c, rfl⟩ : ∃ c, count = c + 1 := ⟨count - 1, by simp at hc; omega⟩
    have hE : pre ++ ((r :: rs).map Record.wire).flatten ++ rest
        = pre ++ r.wire ++ ((rs.map Record.wire).flatten ++ rest) := by
      simp
    have hE2 : pre ++ ((r :: rs).map Record.wire).flatten ++ rest
        = (pre ++ r.wire) ++ (rs.map Record.wire).flatten ++ rest := by
      simp
    have hstep := answerStep_wire r pre ((rs.map Record.wire).flatten ++ rest)
      spare (hwf r (by simp))
    rw [← hE] at hstep
    have hrec := ih (pre ++ r.wire) rest spare c
      (fun x hx => hwf x (by simp [hx])) hrest (by simp at hc; omega)
    rw [← hE2, List.length_append] at hrec
    rw [answerLoop]
    simp only [hstep, bind, Except.bind, hrec]

theorem dotted_ne_nil (a b c d : Nat) : dotted a b c d ≠ [] := by
  simp [dotted]

theorem getAnswer_A (r : Record) (sp : List Nat) (hr : r.isA) :
    getAnswer ⟨r.wire, sp⟩ = .ok r.address := by
  obtain ⟨ht0, ht1, hlen⟩ := hr
  obtain ⟨n0, n1, t0, t1, c0, c1, l0, l1, l2, l3, rdata⟩ := r
  simp only at ht0 ht1 hlen
  subst ht0 ht1
  match rdata, hlen with
  | [a, b, c, d], _ =>
    simp [getAnswer, Record.wire, be16, Slice.index, Slice.slice, Slice.cap, Slice.mem,
      u16, fmtAddress, bind, Except.bind, Record.address, dotted]

theorem getIP_A (r : Record) (sp : List Nat) (hr : r.isA) :
    getIP ⟨r.wire, sp⟩ = .ok r.address := by
  obtain ⟨ht0, ht1, hlen⟩ := hr
  obtain ⟨n0, n1, t0, t1, c0, c1, l0, l1, l2, l3, rdata⟩ := r
  simp only at ht0 ht1 hlen
  subst ht0 ht1
  match rdata, hlen with
  | [a, b, c, d], _ =>
    simp [getIP, Record.wire, be16, Slice.index, Slice.slice, Slice.cap, Slice.mem,
      u16, fmtAddress, bind, Except.bind, Record.address, dotted]

theorem address_ne_nil (r : Record) (hr : r.isA) : r.address ≠ [] := by
  obtain ⟨_, _, hlen⟩ := hr
  obtain ⟨n0, n1, t0, t1, c0, c1, l0, l1, l2, l3, rdata⟩ := r
  simp only at hlen
  match rdata, hlen with
  | [a, b, c, d], _ => exact dotted_ne_nil a b c d

theorem collectAnswers_A (rs : List Record) (after : List Nat)
    (hA : ∀ r ∈ rs, r.isA) :
    collectAnswers (sectionSlices (rs.map Record.wire) after)
      = .ok (rs.map Record.address, rs.map Record.address) := by
  induction rs with
  | nil => simp [sectionSlices, collectAnswers]
  | cons r rs ih =>
    have hr := hA r (by simp)
    have h1 := getAnswer_A r ((rs.map Record.wire).flatten ++ after) hr
    have h2 := getIP_A r ((rs.map Record.wire).flatten ++ after) hr
    have h3 := ih (fun x hx => hA x (by simp [hx]))
    simp only [List.map_cons, sectionSlices, collectAnswers, h1, h2, h3, bind,
      Except.bind, address_ne_nil r hr, ne_eq, not_false_eq_true, if_true]

/-! ## The header of a response -/

theorem dnsResDecode_encode (h : Header) (body spare : List Nat) :
    dnsResDecode ⟨h.encode ++ body, spare⟩
      = (do
          let (queryBytes, index) ←
            questionLoop ⟨body, spare⟩ (h.QuestionCount % 65536) 0
          let (answerBytes, _) ←
            answerLoop ⟨body, spare⟩ (h.AnswerCount % 65536) index
          let querys ← collectQuerys queryBytes
          let (answers, ips) ← collectAnswers answerBytes
          .ok (querys, answers, ips)) := by
  have hlen : h.encode.length = 12 := by simp [Header.encode, be16]
  have hto : Slice.sliceTo ⟨h.encode ++ body, spare⟩ 12
      = .ok ⟨h.encode, body ++ spare⟩ := by
    have := Slice.slice_at [] h.encode body spare 0 12 rfl (by simp [hlen])
    simpa [Slice.sliceTo] using this
  have hfrom : Slice.sliceFrom ⟨h.encode ++ body, spare⟩ 12 = .ok ⟨body, spare⟩ := by
    have := Slice.slice_at h.encode body [] spare 12 (12 + body.length) hlen.symm
      (by rw [hlen])
    simpa [Slice.sliceFrom, Slice.len, hlen, Nat.add_comm] using this
  have h4 : Slice.index ⟨h.encode, body ++ spare⟩ 4 = .ok (h.QuestionCount / 256 % 256) := by
    simp [Slice.index, Header.encode, be16]
  have h5 : Slice.index ⟨h.encode, body ++ spare⟩ 5 = .ok (h.QuestionCount % 256) := by
    simp [Slice.index, Header.encode, be16]
  have h6 : Slice.index ⟨h.encode, body ++ spare⟩ 6 = .ok (h.AnswerCount / 256 % 256) := by
    simp [Slice.index, Header.encode, be16]
  have h7 : Slice.index ⟨h.encode, body ++ spare⟩ 7 = .ok (h.AnswerCount % 256) := by
    simp [Slice.index, Header.encode, be16]
  unfold dnsResDecode
  simp only [hto, hfrom, h4, h5, h6, h7, bind, Except.bind, u16_be16]


/-! ## Whole responses -/

/-- C3. For every response made of a 12-byte header with QDCOUNT = q and
ANCOUNT = n, q well-formed questions and n records with a two-byte owner-name
field, TYPE = 1, RDLENGTH = 4 and data a b c d, dnsResDecode returns the
question names, and both answers and ips are the dotted-decimal strings
"a.b.c.d" in record order. -/
theorem dnsResDecode_A_records (h : Header) (qs : List Question)
    (rs : List Record) (spare : List Nat)
    (hq : h.QuestionCount = qs.length) (ha : h.AnswerCount = rs.length)
    (hq16 : qs.length < 65536) (ha16 : rs.length < 65536)
    (hwf : ∀ q ∈ qs, q.wf) (hA : ∀ r ∈ rs, r.isA) :
    dnsResDecode
        ⟨h.encode ++ (qs.map Question.wire).flatten ++ (rs.map Record.wire).flatten,
          spare⟩
      = .ok (qs.map Question.name, rs.map Record.address, rs.map Record.address) := by
  have hrs : ∀ r ∈ rs, r.rdata.length < 65536 := fun r hr => by
    have := (hA r hr).2.2
    omega
  have hQ := questionLoop_wires qs [] ((rs.map Record.wire).flatten) spare hwf
  have hR := answerLoop_wires rs ((qs.map Question.wire).flatten) [] spare hrs
  simp only [List.nil_append, List.length_nil, Nat.zero_add, List.append_nil] at hQ hR
  rw [List.append_assoc, dnsResDecode_encode, hq, ha, Nat.mod_eq_of_lt hq16,
    Nat.mod_eq_of_lt ha16]
  simp only [hQ, hR, bind, Except.bind, collectQuerys_wires qs _ hwf,
    collectAnswers_A rs _ hA]

theorem dnsResDecode_A_records_witness :
    dnsResDecode
        ⟨[0xFF, 0xFF, 0x81, 0x80, 0, 1, 0, 1, 0, 0, 0, 0,
          7, 101, 120, 97, 109, 112, 108, 101, 3, 99, 111, 109, 0, 0, 1, 0, 1,
          0xC0, 0x0C, 0, 1, 0, 1, 0, 0, 0, 60, 0, 4, 0xC0, 0xA8, 0x00, 0x01], []⟩
      = .ok ([ascii "example.com"], [ascii "192.168.0.1"], [ascii "192.168.0.1"]) :=
  dnsResDecode_A_records (Header.mk 0xFFFF 0x8180 1 1 0 0)
    [⟨[ascii "example", ascii "com"], [0, 1, 0, 1]⟩]
    [⟨0xC0, 0x0C, 0, 1, 0, 1, 0, 0, 0, 60, [0xC0, 0xA8, 0x00, 0x01]⟩] []
    (by decide) (by decide) (by decide) (by decide) (by decide) (by decide)

/-- C6, as the code has it. dnsResDecode has no error result. For every
response whose buffer ends inside a question name that QDCOUNT still counts
(after whole labels or inside a label, before the zero terminator), or ends
less than 12 bytes after the last whole answer record while ANCOUNT counts
more records, the walk indexes past the end of the buffer and the call ends
in a run-time panic, whatever the spare capacity of the buffer. -/
theorem dnsResDecode_truncated_panics (h : Header) (qs : List Question)
    (tail spare : List Nat)
    (hq16 : h.QuestionCount < 65536) (ha16 : h.AnswerCount < 65536)
    (hwf : ∀ q ∈ qs, q.wf)
    (hcut :
      (qs.length < h.QuestionCount
          ∧ ∃ (labels : List GoString) (cut : List Nat),
              (∀ l ∈ labels, 1 ≤ l.length) ∧ cutLabel cut
              ∧ tail = encodeLabels labels ++ cut)
        ∨ (qs.length = h.QuestionCount
            ∧ ∃ (rs : List Record) (rest : List Nat),
                (∀ r ∈ rs, r.rdata.length < 65536)
                ∧ rs.length < h.AnswerCount ∧ rest.length < 12
                ∧ tail = (rs.map Record.wire).flatten ++ rest)) :
    dnsResDecode ⟨h.encode ++ (qs.map Question.wire).flatten ++ tail, spare⟩
      = .error .panic := by
  rw [List.append_assoc, dnsResDecode_encode, Nat.mod_eq_of_lt hq16,
    Nat.mod_eq_of_lt ha16]
  rcases hcut with ⟨hlt, labels, cut, hl, hc, rfl⟩ | ⟨heq, rs, rest, hrs, hlt, hrest, rfl⟩
  · have hQ := questionLoop_cut qs [] labels cut spare h.QuestionCount hwf hl hc hlt
    simp only [List.nil_append, List.length_nil] at hQ
    simp only [hQ, bind, Except.bind]
  · have hQ := questionLoop_wires qs [] ((rs.map Record.wire).flatten ++ rest) spare hwf
    have hR := answerLoop_short rs ((qs.map Question.wire).flatten) rest spare
      h.AnswerCount hrs hrest hlt
    simp only [List.nil_append, List.length_nil, Nat.zero_add] at hQ
    rw [List.append_assoc] at hR
    rw [← heq]
    simp only [hQ, hR, bind, Except.bind]

theorem dnsResDecode_truncated_panics_witness :
    dnsResDecode
        ⟨[0xFF, 0xFF, 0x81, 0x80, 0, 2, 0, 0, 0, 0, 0, 0,
          1, 97, 0, 0, 1, 0, 1,
          3, 119, 119, 119, 7, 101, 120], [0, 0, 0, 0, 0, 0, 0, 0]⟩
      = .error .panic :=
  dnsResDecode_truncated_panics (Header.mk 0xFFFF 0x8180 2 0 0 0)
    [⟨[ascii "a"], [0, 1, 0, 1]⟩] [3, 119, 119, 119, 7, 101, 120]
    [0, 0, 0, 0, 0, 0, 0, 0] (by decide) (by decide) (by decide)
    (Or.inl ⟨by decide, [ascii "www"], [7, 101, 120], by decide,
      (by decide : [101, 120].length < 7), rfl⟩)

/-- C6 as stated fails: on a buffer cut in the middle of a question name, and
on a buffer with ANCOUNT = 2 that holds one answer record, dnsResDecode makes
an out-of-range read and the call ends in a run-time panic; no decode error
is returned. -/
theorem dnsResDecode_truncated_out_of_range :
    dnsResDecode
        ⟨[0xFF, 0xFF, 0x81, 0x80, 0, 1, 0, 0, 0, 0, 0, 0, 7, 101, 120], []⟩
        = .error .panic
      ∧ dnsResDecode
          ⟨[0xFF, 0xFF, 0x81, 0x80, 0, 0, 0, 2, 0, 0, 0, 0,
            0xC0, 0x0C, 0, 1, 0, 1, 0, 0, 0, 60, 0, 4, 0xC0, 0xA8, 0x00, 0x01], []⟩
        = .error .panic := by
  decide


/-! ## Arguments of SetFlag outside their widths -/

/-- C18. SetFlag does not mask its arguments: the out-of-range rcode 0x80
sets bit 7, outside bits 3-0, and gives the Flag of ra = 1; the out-of-range
opcode 16 sets bit 15, outside bits 14-11, and gives the Flag of qr = 1. -/
theorem SetFlag_out_of_range_collides (h : Header) :
    (h.SetFlag 0 0 0 0 0 0 0x80).Flag = (h.SetFlag 0 0 0 0 0 1 0).Flag
      ∧ (h.SetFlag 0 16 0 0 0 0 0).Flag = (h.SetFlag 1 0 0 0 0 0 0).Flag
      ∧ (h.SetFlag 0 0 0 0 0 0 0x80).Flag >>> 7 &&& 1 = 1
      ∧ (h.SetFlag 0 0 0 0 0 0 0x80).Flag &&& 15 = 0
      ∧ (h.SetFlag 0 16 0 0 0 0 0).Flag >>> 15 &&& 1 = 1
      ∧ (h.SetFlag 0 16 0 0 0 0 0).Flag >>> 11 &&& 15 = 0
      ∧ ¬ (0x80 < 16) ∧ ¬ (16 < 16) := by
  refine ⟨rfl, rfl, ?_, ?_, ?_, ?_, by decide, by decide⟩ <;>
    simp only [Header.SetFlag] <;> decide

/-! ## Empty segments -/

/-- C11, the code at names with an empty segment. For "example.com." ParseDN
emits the zero-length label of the empty last segment, so its output ends in
two zero bytes; for "a..b" the zero-length label stands in the middle, and
getDN, which stops at the first zero length byte, reads the encoding back as
"a". -/
theorem ParseDN_empty_segment_emitted :
    splitDot (ascii "example.com.") = [ascii "example", ascii "com", []]
      ∧ ParseDN (ascii "example.com.")
          = [7, 101, 120, 97, 109, 112, 108, 101, 3, 99, 111, 109, 0, 0]
      ∧ ParseDN (ascii "a..b") = [1, 97, 0, 1, 98, 0]
      ∧ getDN ⟨ParseDN (ascii "a..b"), []⟩ = .ok (ascii "a")
      ∧ ParseDN [] = [0, 0]
      ∧ ParseDN (ascii ".com") = [0, 3, 99, 111, 109, 0] := by
  decide


/-! ## Trimming -/

theorem dropWhile_dot_append_dot (s : GoString) :
    ((s ++ [dot]).dropWhile (· = dot)).reverse.dropWhile (· = dot)
      = (s.dropWhile (· = dot)).reverse.dropWhile (· = dot) := by
  rw [List.dropWhile_append]
  split
  · rename_i hE
    have : s.dropWhile (· = dot) = [] := by
      simpa [List.isEmpty_iff] using hE
    rw [this]
    simp [List.dropWhile]
  · rw [List.reverse_append]
    simp [List.dropWhile]

theorem trimDot_snoc_dot (s : GoString) : trimDot (s ++ [dot]) = trimDot s := by
  unfold trimDot
  rw [dropWhile_dot_append_dot]

theorem dropWhile_dot_head (s : GoString) :
    (s.dropWhile (· = dot)).head? ≠ some dot := by
  have h := List.head?_dropWhile_not (· = dot) s
  intro hc
  rw [hc] at h
  simp at h

theorem trimDot_getLast (s : GoString) : (trimDot s).getLast? ≠ some dot := by
  unfold trimDot
  rw [List.getLast?_reverse]
  exact dropWhile_dot_head _

theorem trimDot_head (s : GoString) : (trimDot s).head? ≠ some dot := by
  unfold trimDot
  rw [List.head?_reverse]
  intro hc
  have hsuf : (s.dropWhile (· = dot)).reverse.dropWhile (· = dot)
      <:+ (s.dropWhile (· = dot)).reverse := List.dropWhile_suffix _
  obtain ⟨t, ht⟩ := hsuf
  have hne : (s.dropWhile (· = dot)).reverse.dropWhile (· = dot) ≠ [] := by
    intro h0
    rw [h0] at hc
    simp at hc
  have h1 : (s.dropWhile (· = dot)).reverse.getLast? = some dot := by
    rw [← ht, List.getLast?_append_of_ne_nil _ hne]
    exact hc
  rw [List.getLast?_reverse] at h1
  exact dropWhile_dot_head s h1

theorem trimDot_eq_self (s : GoString) (h1 : s.head? ≠ some dot)
    (h2 : s.getLast? ≠ some dot) : trimDot s = s := by
  have e1 : s.dropWhile (· = dot) = s := by
    cases s with
    | nil => rfl
    | cons c t =>
      have hc : c ≠ dot := fun h => h1 (by simp [h])
      simp [List.dropWhile, hc]
  have e2 : s.reverse.dropWhile (· = dot) = s.reverse := by
    cases hr : s.reverse with
    | nil => rfl
    | cons c t =>
      have hc : c ≠ dot := by
        intro h
        apply h2
        rw [← List.head?_reverse, hr, h]
        rfl
      simp [List.dropWhile, hc]
  unfold trimDot
  rw [e1, e2, List.reverse_reverse]

theorem trimDot_flatten_labels (labels : List GoString) :
    trimDot ((labels.map (fun l => l ++ [dot])).flatten) = trimDot (joinDot labels) := by
  cases labels with
  | nil => rfl
  | cons l ls => rw [flatten_map_dot (l :: ls) (by simp), trimDot_snoc_dot]

/-- C17, as the code has it. For every window made of labels encoded as
[len][len bytes] with 1 ≤ len ≤ 255, a zero byte and any trailing bytes,
getDN returns the labels joined by single "." separators with all leading and
trailing "." bytes trimmed, and ignores what follows the zero byte. The result
is exactly the joined labels if and only if the joined labels neither start
nor end with a "." byte. -/
theorem getDN_joins_and_trims (labels : List GoString) (rest spare : List Nat)
    (hlen : ∀ l ∈ labels, 1 ≤ l.length ∧ l.length ≤ 255) :
    getDN ⟨encodeLabels labels ++ 0 :: rest, spare⟩ = .ok (trimDot (joinDot labels))
      ∧ (getDN ⟨encodeLabels labels ++ 0 :: rest, spare⟩ = .ok (joinDot labels)
          ↔ (joinDot labels).head? ≠ some dot
              ∧ (joinDot labels).getLast? ≠ some dot) := by
  have h := getDN_labels labels rest spare (fun l hl => (hlen l hl).1)
  rw [trimDot_flatten_labels] at h
  refine ⟨h, ?_⟩
  rw [h]
  constructor
  · intro heq
    have heq2 : trimDot (joinDot labels) = joinDot labels := by
      injection heq
    constructor
    · rw [← heq2]; exact trimDot_head _
    · rw [← heq2]; exact trimDot_getLast _
  · rintro ⟨h1, h2⟩
    rw [trimDot_eq_self _ h1 h2]

theorem getDN_joins_and_trims_witness :
    getDN ⟨[3, 119, 119, 119, 7, 101, 120, 97, 109, 112, 108, 101, 3, 99, 111, 109, 0,
        0, 1, 0, 1], [9, 9]⟩ = .ok (trimDot (ascii "www.example.com"))
      ∧ (getDN ⟨[3, 119, 119, 119, 7, 101, 120, 97, 109, 112, 108, 101, 3, 99, 111, 109, 0,
            0, 1, 0, 1], [9, 9]⟩ = .ok (ascii "www.example.com")
          ↔ (ascii "www.example.com").head? ≠ some dot
              ∧ (ascii "www.example.com").getLast? ≠ some dot) :=
  getDN_joins_and_trims [ascii "www", ascii "example", ascii "com"] [0, 1, 0, 1] [9, 9]
    (by decide)

/-- C17 as stated fails: the window 01 2E 00 holds the one label ".", and the
window 02 2E 61 01 62 00 the labels ".a" and "b"; getDN returns the empty
string for the first and "a.b" for the second, not the joined labels "." and
".a.b". -/
theorem getDN_trims_label_dots :
    getDN ⟨encodeLabels [[46]] ++ [0], []⟩ = .ok []
      ∧ joinDot [[46]] = [46]
      ∧ getDN ⟨encodeLabels [[46, 97], [98]] ++ [0], []⟩ = .ok (ascii "a.b")
      ∧ joinDot [[46, 97], [98]] = ascii ".a.b" := by
  decide


/-! ## getDN on every window -/

theorem Slice.index_in_range (s : Slice) (i : Nat) (h : i < s.len) :
    ∃ b, s.index i = .ok b := by
  unfold Slice.index
  have h2 : i < s.elems.length := h
  rw [List.getElem?_eq_getElem h2]
  exact ⟨_, rfl⟩

theorem Slice.slice_in_range (s : Slice) (lo hi : Nat) (h1 : lo ≤ hi)
    (h2 : hi ≤ s.cap) : ∃ t, s.slice lo hi = .ok t := by
  unfold Slice.slice
  rw [if_pos ⟨h1, h2⟩]
  exact ⟨_, rfl⟩

theorem Slice.len_le_cap (s : Slice) : s.len ≤ s.cap := by
  unfold Slice.len Slice.cap
  omega

theorem getDNLoop_total (bytes : Slice) :
    ∀ (fuel index : Nat) (dn : GoString), 1 ≤ fuel → bytes.len + 1 ≤ fuel + index →
      ∃ s, getDNLoop bytes fuel index dn = .ok s := by
  intro fuel
  induction fuel with
  | zero => intro index dn h; omega
  | succ f ih =>
    intro index dn _ hinv
    rw [getDNLoop]
    by_cases hge : index ≥ bytes.len
    · rw [if_pos hge]; exact ⟨dn, rfl⟩
    · rw [if_neg hge]
      obtain ⟨l, hl⟩ := Slice.index_in_range bytes index (by omega)
      have hcap := Slice.len_le_cap bytes
      simp only [hl, bind, Except.bind]
      by_cases hl0 : l = 0
      · rw [if_pos hl0]; exact ⟨dn, rfl⟩
      · rw [if_neg hl0]
        by_cases hover : index + 1 + l > bytes.len
        · rw [if_pos hover]
          obtain ⟨t, ht⟩ := Slice.slice_in_range bytes (index + 1) bytes.len
            (by omega) hcap
          simp only [Slice.sliceFrom, ht]
          exact ih (index + 1 + l) _ (by omega) (by omega)
        · rw [if_neg hover]
          obtain ⟨t, ht⟩ := Slice.slice_in_range bytes (index + 1) (index + l + 1)
            (by omega) (by omega)
          simp only [ht]
          exact ih (index + 1 + l) _ (by omega) (by omega)

/-- C19. For every byte slice, whatever its contents, getDN ends and returns
a string: no index or slice expression is out of range and the loop does not
run out of its len(bytes) + 1 passes. The string returned neither starts nor
ends with a "." byte. -/
theorem getDN_total_and_trimmed (bytes : Slice) :
    ∃ s, getDN bytes = .ok s ∧ s.head? ≠ some dot ∧ s.getLast? ≠ some dot := by
  obtain ⟨dn, hdn⟩ := getDNLoop_total bytes (bytes.len + 1) 0 [] (by omega) (by omega)
  refine ⟨trimDot dn, ?_, trimDot_head dn, trimDot_getLast dn⟩
  unfold getDN
  rw [hdn]
  rfl

/-! ## Windows that end inside a label -/

theorem getDNLoop_cut (labels : List GoString) :
    ∀ (pre bytes spare : List Nat) (l fuel : Nat) (dn : GoString),
      (∀ x ∈ labels, 1 ≤ x.length) → bytes.length < l → labels.length + 1 < fuel →
      getDNLoop ⟨pre ++ encodeLabels labels ++ l :: bytes, spare⟩ fuel pre.length dn
        = .ok (dn ++ (labels.map (fun x => x ++ [dot])).flatten ++ bytes ++ [dot]) := by
  induction labels with
  | nil =>
    intro pre bytes spare l fuel dn _ hb hf
    obtain ⟨f, rfl⟩ : ∃ f, fuel = f + 2 := ⟨fuel - 2, by simp at hf; omega⟩
    have hidx : Slice.index ⟨pre ++ encodeLabels [] ++ l :: bytes, spare⟩ pre.length
        = .ok l := by
      have := Slice.index_at pre bytes spare l pre.length rfl
      simpa [encodeLabels] using this
    have hsl : Slice.sliceFrom ⟨pre ++ encodeLabels [] ++ l :: bytes, spare⟩
        (pre.length + 1) = .ok ⟨bytes, spare⟩ := by
      have := Slice.slice_at (pre ++ [l]) bytes [] spare (pre.length + 1)
        (pre.length + 1 + bytes.length) (by simp) (by simp)
      have e : (Slice.len ⟨pre ++ encodeLabels [] ++ l :: bytes, spare⟩)
          = pre.length + 1 + bytes.length := by
        simp [Slice.len, encodeLabels]; omega
      rw [Slice.sliceFrom, e]
      simpa [encodeLabels] using this
    have hl0 : l ≠ 0 := by omega
    have hlt : ¬ (pre.length ≥ Slice.len ⟨pre ++ encodeLabels [] ++ l :: bytes, spare⟩) := by
      simp [Slice.len]
    have hover : pre.length + 1 + l
        > Slice.len ⟨pre ++ encodeLabels [] ++ l :: bytes, spare⟩ := by
      simp [Slice.len, encodeLabels]; omega
    rw [getDNLoop]
    simp only [hlt, if_false, hidx, bind, Except.bind, hl0, hover, if_true, hsl]
    rw [getDNLoop, if_pos (by omega)]
    simp
  | cons x xs ih =>
    intro pre bytes spare l fuel dn hx hb hf
    obtain ⟨f, rfl⟩ : ∃ f, fuel = f + 1 := ⟨fuel - 1, by simp at hf; omega⟩
    have hx1 : 1 ≤ x.length := hx x (by simp)
    have hE : pre ++ encodeLabels (x :: xs) ++ l :: bytes
        = (pre ++ [x.length] ++ x) ++ encodeLabels xs ++ l :: bytes := by
      simp [encodeLabels]
    have hidx : Slice.index ⟨pre ++ encodeLabels (x :: xs) ++ l :: bytes, spare⟩ pre.length
        = .ok x.length := by
      have := Slice.index_at pre (x ++ encodeLabels xs ++ l :: bytes) spare x.length
        pre.length rfl
      simpa [encodeLabels] using this
    have hsl : Slice.slice ⟨pre ++ encodeLabels (x :: xs) ++ l :: bytes, spare⟩
        (pre.length + 1) (pre.length + x.length + 1)
        = .ok ⟨x, (encodeLabels xs ++ l :: bytes) ++ spare⟩ := by
      have := Slice.slice_at (pre ++ [x.length]) x (encodeLabels xs ++ l :: bytes) spare
        (pre.length + 1) (pre.length + x.length + 1) (by simp) (by simp; omega)
      simpa [encodeLabels] using this
    have hrec := ih (pre ++ [x.length] ++ x) bytes spare l f (dn ++ x ++ [dot])
      (fun y hy => hx y (by simp [hy])) hb (by simp at hf; omega)
    rw [← hE] at hrec
    have hlen2 : (pre ++ [x.length] ++ x).length = pre.length + 1 + x.length := by
      simp; omega
    rw [hlen2] at hrec
    have hlt : ¬ (pre.length
        ≥ Slice.len ⟨pre ++ encodeLabels (x :: xs) ++ l :: bytes, spare⟩) := by
      simp [Slice.len]
    have hle : ¬ (pre.length + 1 + x.length
        > Slice.len ⟨pre ++ encodeLabels (x :: xs) ++ l :: bytes, spare⟩) := by
      simp [Slice.len, encodeLabels]; omega
    have hx0 : x.length ≠ 0 := by omega
    rw [getDNLoop]
    simp only [hlt, hle, if_false, bind, Except.bind, hx0, hidx, hsl, hrec]
    simp

/-- C12, as the code has it. getDN has no failure result. For every window
made of whole labels followed by a length byte that announces more bytes than
remain, getDN takes the bytes that remain as the last label and returns the
labels joined by "." and trimmed. -/
theorem getDN_cut_label_best_effort (labels : List GoString)
    (bytes spare : List Nat) (l : Nat)
    (hlen : ∀ x ∈ labels, 1 ≤ x.length) (hcut : bytes.length < l) :
    getDN ⟨encodeLabels labels ++ l :: bytes, spare⟩
      = .ok (trimDot (joinDot (labels ++ [bytes]))) := by
  have h := getDNLoop_cut labels [] bytes spare l
    (Slice.len ⟨encodeLabels labels ++ l :: bytes, spare⟩ + 1) [] hlen hcut
    (by
      have := encodeLabels_length_ge labels
      simp [Slice.len]; omega)
  simp only [List.nil_append, List.length_nil] at h
  unfold getDN
  rw [h]
  have e : (labels.map (fun x => x ++ [dot])).flatten ++ bytes ++ [dot]
      = ((labels ++ [bytes]).map (fun x => x ++ [dot])).flatten := by
    simp
  rw [e]
  show Except.ok (trimDot _) = _
  rw [trimDot_flatten_labels]

theorem getDN_cut_label_best_effort_witness :
    getDN ⟨[3, 119, 119, 119, 7, 101, 120], [0, 0]⟩ = .ok (ascii "www.ex") :=
  getDN_cut_label_best_effort [ascii "www"] [101, 120] [0, 0] 7 (by decide) (by decide)

/-- C12 as stated fails: in the window 07 "ex" the label announces 7 bytes and
2 remain; getDN reports no failure and returns the name "ex", built from the
bytes that remain. -/
theorem getDN_cut_label_returns_name :
    [101, 120].length < 7 ∧ getDN ⟨[7, 101, 120], []⟩ = .ok (ascii "ex") := by
  decide

/-! ## Records by type -/

theorem fmtAddress_four (a b c d : Nat) (tl sp : List Nat) :
    fmtAddress ⟨a :: b :: c :: d :: tl, sp⟩ = .ok (dotted a b c d) := by
  simp [fmtAddress, Slice.index, dotted, bind, Except.bind]

theorem fmtAddress_short (rdata sp : List Nat) (h : rdata.length < 4) :
    fmtAddress ⟨rdata, sp⟩ = .error .panic := by
  match rdata, h with
  | [], _ => rfl
  | [_], _ => rfl
  | [_, _], _ => rfl
  | [_, _, _], _ => rfl

theorem getAnswer_fields (bytes : Slice) (b2 b3 d0 d1 : Nat)
    (h2 : bytes.index 2 = .ok b2) (h3 : bytes.index 3 = .ok b3)
    (h10 : bytes.index 10 = .ok d0) (h11 : bytes.index 11 = .ok d1) :
    getAnswer bytes
      = (do
          let address ← bytes.slice 12 (12 + u16 d0 d1)
          if u16 b2 b3 = 1 then fmtAddress address
          else if u16 b2 b3 = 5 then getDN bytes
          else .ok []) := by
  unfold getAnswer
  simp only [h2, h3, h10, h11, bind, Except.bind]

theorem getIP_fields (bytes : Slice) (b2 b3 d0 d1 : Nat)
    (h2 : bytes.index 2 = .ok b2) (h3 : bytes.index 3 = .ok b3)
    (h10 : bytes.index 10 = .ok d0) (h11 : bytes.index 11 = .ok d1) :
    getIP bytes
      = (do
          let address ← bytes.slice 12 (12 + u16 d0 d1)
          if u16 b2 b3 = 1 then fmtAddress address
          else .ok []) := by
  unfold getIP
  simp only [h2, h3, h10, h11, bind, Except.bind]

theorem Record.wire_fields (r : Record) (sp : List Nat) (h16 : r.rdata.length < 65536) :
    Slice.index ⟨r.wire, sp⟩ 2 = .ok r.type0
      ∧ Slice.index ⟨r.wire, sp⟩ 3 = .ok r.type1
      ∧ Slice.index ⟨r.wire, sp⟩ 10 = .ok (r.rdata.length / 256 % 256)
      ∧ Slice.index ⟨r.wire, sp⟩ 11 = .ok (r.rdata.length % 256)
      ∧ Slice.slice ⟨r.wire, sp⟩ 12
          (12 + u16 (r.rdata.length / 256 % 256) (r.rdata.length % 256))
        = .ok ⟨r.rdata, sp⟩ := by
  refine ⟨by simp [Slice.index, Record.wire], by simp [Slice.index, Record.wire],
    by simp [Slice.index, Record.wire, be16], by simp [Slice.index, Record.wire, be16], ?_⟩
  rw [u16_be16, Nat.mod_eq_of_lt h16]
  have := Slice.slice_at
    [r.name0, r.name1, r.type0, r.type1, r.class0, r.class1, r.ttl0, r.ttl1, r.ttl2,
      r.ttl3, r.rdata.length / 256 % 256, r.rdata.length % 256]
    r.rdata [] sp 12 (12 + r.rdata.length) rfl rfl
  simpa [Record.wire, be16] using this

theorem getAnswer_getIP_typeA (r : Record) (sp : List Nat)
    (ht0 : r.type0 = 0) (ht1 : r.type1 = 1) (h16 : r.rdata.length < 65536) :
    getAnswer ⟨r.wire, sp⟩ = fmtAddress ⟨r.rdata, sp⟩
      ∧ getIP ⟨r.wire, sp⟩ = fmtAddress ⟨r.rdata, sp⟩ := by
  obtain ⟨h2, h3, h10, h11, hsl⟩ := Record.wire_fields r sp h16
  have hA := getAnswer_fields _ _ _ _ _ h2 h3 h10 h11
  have hI := getIP_fields _ _ _ _ _ h2 h3 h10 h11
  have htyp : u16 r.type0 r.type1 = 1 := by rw [ht0, ht1]; rfl
  simp only [hsl, bind, Except.bind, htyp, if_true] at hA hI
  exact ⟨hA, hI⟩

theorem list_four_le (l : List Nat) (h : 4 ≤ l.length) :
    ∃ a b c d tl, l = a :: b :: c :: d :: tl := by
  match l, h with
  | a :: b :: c :: d :: tl, _ => exact ⟨a, b, c, d, tl, rfl⟩

/-- C13, as the code has it. getAnswer and getIP do not compare the data
length of a TYPE 1 record with 4. For a data length of 4 or more both return
the dotted-decimal string of the first four data bytes; for a data length
below 4 the read of a missing address byte is out of range and both calls end
in a run-time panic. -/
theorem A_record_data_length (r : Record) (sp : List Nat)
    (ht0 : r.type0 = 0) (ht1 : r.type1 = 1) (h16 : r.rdata.length < 65536) :
    (4 ≤ r.rdata.length →
        getAnswer ⟨r.wire, sp⟩ = .ok r.address ∧ getIP ⟨r.wire, sp⟩ = .ok r.address
          ∧ r.address ≠ [])
      ∧ (r.rdata.length < 4 →
          getAnswer ⟨r.wire, sp⟩ = .error .panic
            ∧ getIP ⟨r.wire, sp⟩ = .error .panic) := by
  obtain ⟨hA, hI⟩ := getAnswer_getIP_typeA r sp ht0 ht1 h16
  rw [hA, hI]
  constructor
  · intro h4
    obtain ⟨a, b, c, d, tl, hr⟩ := list_four_le r.rdata h4
    have had : r.address = dotted a b c d := by
      unfold Record.address
      rw [hr]
    rw [had, hr]
    exact ⟨fmtAddress_four a b c d tl sp, fmtAddress_four a b c d tl sp,
      dotted_ne_nil a b c d⟩
  · intro h4
    exact ⟨fmtAddress_short _ sp h4, fmtAddress_short _ sp h4⟩

theorem A_record_data_length_witness :
    getAnswer ⟨[0xC0, 0x0C, 0, 1, 0, 1, 0, 0, 0, 60, 0, 5, 10, 0, 0, 1, 7], []⟩
        = .ok (ascii "10.0.0.1")
      ∧ getIP ⟨[0xC0, 0x0C, 0, 1, 0, 1, 0, 0, 0, 60, 0, 5, 10, 0, 0, 1, 7], []⟩
        = .ok (ascii "10.0.0.1") :=
  have h := (A_record_data_length
    ⟨0xC0, 0x0C, 0, 1, 0, 1, 0, 0, 0, 60, [10, 0, 0, 1, 7]⟩ [] rfl rfl (by decide)).1
    (by decide)
  ⟨h.1, h.2.1⟩

/-- C13 as stated fails: a TYPE 1 record with the data length 5 is not a
failure, getAnswer and getIP return the address formatted from its first
four data bytes. -/
theorem A_record_five_bytes_formatted :
    getAnswer ⟨[0xC0, 0x0C, 0, 1, 0, 1, 0, 0, 0, 60, 0, 5, 10, 0, 0, 1, 7], []⟩
        = .ok (ascii "10.0.0.1")
      ∧ getIP ⟨[0xC0, 0x0C, 0, 1, 0, 1, 0, 0, 0, 60, 0, 5, 10, 0, 0, 1, 7], []⟩
        = .ok (ascii "10.0.0.1")
      ∧ dnsResDecode ⟨[0xFF, 0xFF, 0x81, 0x80, 0, 0, 0, 1, 0, 0, 0, 0,
            0xC0, 0x0C, 0, 1, 0, 1, 0, 0, 0, 60, 0, 5, 10, 0, 0, 1, 7], []⟩
        = .ok ([], [ascii "10.0.0.1"], [ascii "10.0.0.1"]) := by
  decide

/-- C14. For every record whose bytes 2-3 give a type other than 1 and 5 and
whose declared payload lies inside the record bytes, getAnswer and getIP both
return the empty string, so in the last loop of dnsResDecode the record adds
an empty answer and nothing to ips. -/
theorem other_types_give_empty_strings (bytes : Slice) (b2 b3 d0 d1 : Nat)
    (h2 : bytes.index 2 = .ok b2) (h3 : bytes.index 3 = .ok b3)
    (h10 : bytes.index 10 = .ok d0) (h11 : bytes.index 11 = .ok d1)
    (hin : 12 + u16 d0 d1 ≤ bytes.len)
    (hne1 : u16 b2 b3 ≠ 1) (hne5 : u16 b2 b3 ≠ 5) :
    getAnswer bytes = .ok [] ∧ getIP bytes = .ok []
      ∧ ∀ rest : List Slice,
          collectAnswers (bytes :: rest)
            = (do
                let (answers, ips) ← collectAnswers rest
                .ok ([] :: answers, ips)) := by
  obtain ⟨address, hsl⟩ := Slice.slice_in_range bytes 12 (12 + u16 d0 d1) (by omega)
    (Nat.le_trans hin (Slice.len_le_cap bytes))
  have hA : getAnswer bytes = .ok [] := by
    rw [getAnswer_fields _ _ _ _ _ h2 h3 h10 h11]
    simp only [hsl, bind, Except.bind, hne1, hne5, if_false]
  have hI : getIP bytes = .ok [] := by
    rw [getIP_fields _ _ _ _ _ h2 h3 h10 h11]
    simp only [hsl, bind, Except.bind, hne1, if_false]
  refine ⟨hA, hI, fun rest => ?_⟩
  rw [collectAnswers]
  simp only [hA, hI, bind, Except.bind]
  cases collectAnswers rest with
  | error e => rfl
  | ok p => simp

theorem other_types_give_empty_strings_witness :
    getAnswer ⟨[0xC0, 0x0C, 0, 16, 0, 1, 0, 0, 0, 60, 0, 3, 2, 104, 105], []⟩ = .ok []
      ∧ getIP ⟨[0xC0, 0x0C, 0, 16, 0, 1, 0, 0, 0, 60, 0, 3, 2, 104, 105], []⟩ = .ok []
      ∧ ∀ rest : List Slice,
          collectAnswers
              (⟨[0xC0, 0x0C, 0, 16, 0, 1, 0, 0, 0, 60, 0, 3, 2, 104, 105], []⟩ :: rest)
            = (do
                let (answers, ips) ← collectAnswers rest
                .ok ([] :: answers, ips)) :=
  other_types_give_empty_strings
    ⟨[0xC0, 0x0C, 0, 16, 0, 1, 0, 0, 0, 60, 0, 3, 2, 104, 105], []⟩ 0 16 0 3
    rfl rfl rfl rfl (by decide) (by decide) (by decide)


/-! ## Decoding a query -/

theorem dnsResDecode_one_question (h : Header) (labels : List GoString)
    (fixed spare : List Nat)
    (hq : h.QuestionCount = 1) (ha : h.AnswerCount = 0)
    (hne : labels ≠ [])
    (hlen : ∀ l ∈ labels, 1 ≤ l.length ∧ l.length ≤ 63)
    (hdot : ∀ l ∈ labels, dot ∉ l) (hfixed : fixed.length = 4) :
    dnsResDecode ⟨h.encode ++ ParseDN (joinDot labels) ++ fixed, spare⟩
      = .ok ([joinDot labels], [], []) := by
  have hl1 : ∀ l ∈ labels, 1 ≤ l.length := fun l hl => (hlen l hl).1
  have hwf : ∀ q ∈ [Question.mk labels fixed], q.wf := by
    intro q hqm
    simp only [List.mem_singleton] at hqm
    subst hqm
    exact ⟨hl1, hfixed⟩
  have hname : (Question.mk labels fixed).name = joinDot labels :=
    trimDot_labels labels hne hl1 hdot
  have hQ := questionLoop_wires [Question.mk labels fixed] [] [] spare hwf
  have hC := collectQuerys_wires [Question.mk labels fixed] ([] ++ spare) hwf
  have hE : h.encode ++ ParseDN (joinDot labels) ++ fixed
      = h.encode ++ ([] ++ ([Question.mk labels fixed].map Question.wire).flatten ++ []) := by
    rw [ParseDN_joinDot labels hne hdot (fun l hl => by have := hlen l hl; omega)]
    simp [Question.wire]
  rw [hE, dnsResDecode_encode, hq, ha]
  simp only [List.length_singleton, List.length_nil] at hQ
  have h1 : 1 % 65536 = 1 := rfl
  have h0 : 0 % 65536 = 0 := rfl
  rw [h1, h0, hQ]
  simp only [answerLoop, bind, Except.bind]
  rw [hC]
  simp only [collectAnswers, List.map_cons, List.map_nil, hname]

/-- C16. For every name made of one or more labels of 1 to 63 bytes without
".", and every type and class, dnsResDecode applied to a header with
QDCOUNT = 1 and ANCOUNT = 0 followed by ParseDN(name) and the four type and
class bytes returns querys = [name], no answers and no ips, whatever lies in
the spare capacity of the buffer; so does decoding the request that DigDN
builds for the name. -/
theorem dnsResDecode_undoes_query (h : Header) (labels : List GoString)
    (typ cls : Nat) (spare : List Nat)
    (hq : h.QuestionCount = 1) (ha : h.AnswerCount = 0)
    (hne : labels ≠ [])
    (hlen : ∀ l ∈ labels, 1 ≤ l.length ∧ l.length ≤ 63)
    (hdot : ∀ l ∈ labels, dot ∉ l) :
    dnsResDecode ⟨h.encode ++ ParseDN (joinDot labels) ++ (be16 typ ++ be16 cls), spare⟩
        = .ok ([joinDot labels], [], [])
      ∧ dnsResDecode ⟨DigDNRequest (joinDot labels), spare⟩
        = .ok ([joinDot labels], [], []) := by
  constructor
  · exact dnsResDecode_one_question h labels (be16 typ ++ be16 cls) spare hq ha hne
      hlen hdot rfl
  · exact dnsResDecode_one_question (Header.mk 0xFFFF 0 1 0 0 0) labels [0, 1, 0, 1]
      spare rfl rfl hne hlen hdot rfl

theorem dnsResDecode_undoes_query_witness :
    dnsResDecode
        ⟨[0x12, 0x34, 0x01, 0x00, 0, 1, 0, 0, 0, 0, 0, 0,
          7, 101, 120, 97, 109, 112, 108, 101, 3, 99, 111, 109, 0, 0, 28, 0, 1], [5, 5]⟩
        = .ok ([ascii "example.com"], [], [])
      ∧ dnsResDecode ⟨DigDNRequest (ascii "example.com"), [5, 5]⟩
        = .ok ([ascii "example.com"], [], []) :=
  dnsResDecode_undoes_query (Header.mk 0x1234 0x0100 1 0 0 0)
    [ascii "example", ascii "com"] 28 1 [5, 5] rfl rfl (by decide) (by decide)
    (by decide)


/-! ## What a returned result says about the buffer -/

theorem bind_eq_ok {α β : Type} (x : Except Fault α) (f : α → Except Fault β) (b : β)
    (h : x >>= f = .ok b) : ∃ a, x = .ok a ∧ f a = .ok b := by
  cases x with
  | error e => cases h
  | ok a => exact ⟨a, rfl, h⟩

theorem Slice.slice_ok_bounds (s t : Slice) (lo hi : Nat) (h : s.slice lo hi = .ok t) :
    lo ≤ hi ∧ hi ≤ s.cap ∧ t = ⟨(s.mem.drop lo).take (hi - lo), s.mem.drop hi⟩ := by
  unfold Slice.slice at h
  split at h
  · rename_i hc
    injection h with h
    exact ⟨hc.1, hc.2, h.symm⟩
  · cases h

theorem skipLabels_ge (data : Slice) :
    ∀ (fuel index idx : Nat), skipLabels data fuel index = .ok idx → index ≤ idx := by
  intro fuel
  induction fuel with
  | zero => intro index idx h; cases h
  | succ f ih =>
    intro index idx h
    rw [skipLabels] at h
    obtain ⟨l, _, h⟩ := bind_eq_ok _ _ _ h
    by_cases hl : l = 0
    · rw [if_pos hl] at h
      injection h with h
      omega
    · rw [if_neg hl] at h
      have := ih _ _ h
      omega

theorem questionStep_bounds (data q : Slice) (i j : Nat)
    (h : questionStep data i = .ok (q, j)) : i + 5 ≤ j ∧ j ≤ data.cap := by
  unfold questionStep at h
  obtain ⟨idx, hs, h⟩ := bind_eq_ok _ _ _ h
  obtain ⟨t, hsl, h⟩ := bind_eq_ok _ _ _ h
  have hge := skipLabels_ge data _ _ _ hs
  obtain ⟨_, hcap, _⟩ := Slice.slice_ok_bounds _ _ _ _ hsl
  injection h with h
  injection h with _ hj
  omega

theorem answerStep_bounds (data a : Slice) (i j : Nat)
    (h : answerStep data i = .ok (a, j)) : i + 12 ≤ j ∧ j ≤ data.cap := by
  unfold answerStep at h
  obtain ⟨d0, _, h⟩ := bind_eq_ok _ _ _ h
  obtain ⟨d1, _, h⟩ := bind_eq_ok _ _ _ h
  obtain ⟨t, hsl, h⟩ := bind_eq_ok _ _ _ h
  obtain ⟨_, hcap, _⟩ := Slice.slice_ok_bounds _ _ _ _ hsl
  injection h with h
  injection h with _ hj
  omega

theorem questionLoop_bounds (data : Slice) :
    ∀ (count i j : Nat) (sl : List Slice), questionLoop data count i = .ok (sl, j) →
      sl.length = count ∧ i + 5 * count ≤ j ∧ (0 < count → j ≤ data.cap) := by
  intro count
  induction count with
  | zero =>
    intro i j sl h
    rw [questionLoop] at h
    injection h with h
    injection h with h1 h2
    subst h1 h2
    simp
  | succ c ih =>
    intro i j sl h
    rw [questionLoop] at h
    obtain ⟨⟨q, i2⟩, hstep, h⟩ := bind_eq_ok _ _ _ h
    obtain ⟨⟨qs, j2⟩, hrec, h⟩ := bind_eq_ok _ _ _ h
    injection h with h
    injection h with h1 h2
    subst h1 h2
    obtain ⟨hb1, hb2⟩ := questionStep_bounds _ _ _ _ hstep
    obtain ⟨hl, hj, hc⟩ := ih _ _ _ hrec
    refine ⟨by simp [hl], by omega, fun _ => ?_⟩
    by_cases hc0 : 0 < c
    · exact hc hc0
    · have : c = 0 := by omega
      subst this
      rw [questionLoop] at hrec
      injection hrec with hrec
      injection hrec with _ h2
      omega

theorem answerLoop_bounds (data : Slice) :
    ∀ (count i j : Nat) (sl : List Slice), answerLoop data count i = .ok (sl, j) →
      sl.length = count ∧ i + 12 * count ≤ j ∧ (0 < count → j ≤ data.cap) := by
  intro count
  induction count with
  | zero =>
    intro i j sl h
    rw [answerLoop] at h
    injection h with h
    injection h with h1 h2
    subst h1 h2
    simp
  | succ c ih =>
    intro i j sl h
    rw [answerLoop] at h
    obtain ⟨⟨q, i2⟩, hstep, h⟩ := bind_eq_ok _ _ _ h
    obtain ⟨⟨qs, j2⟩, hrec, h⟩ := bind_eq_ok _ _ _ h
    injection h with h
    injection h with h1 h2
    subst h1 h2
    obtain ⟨hb1, hb2⟩ := answerStep_bounds _ _ _ _ hstep
    obtain ⟨hl, hj, hc⟩ := ih _ _ _ hrec
    refine ⟨by simp [hl], by omega, fun _ => ?_⟩
    by_cases hc0 : 0 < c
    · exact hc hc0
    · have : c = 0 := by omega
      subst this
      rw [answerLoop] at hrec
      injection hrec with hrec
      injection hrec with _ h2
      omega

theorem collectQuerys_length :
    ∀ (sl : List Slice) (querys : List GoString), collectQuerys sl = .ok querys →
      querys.length = sl.length := by
  intro sl
  induction sl with
  | nil =>
    intro querys h
    rw [collectQuerys] at h
    injection h with h
    subst h
    rfl
  | cons s rest ih =>
    intro querys h
    rw [collectQuerys] at h
    obtain ⟨q, _, h⟩ := bind_eq_ok _ _ _ h
    obtain ⟨qs, hrec, h⟩ := bind_eq_ok _ _ _ h
    injection h with h
    subst h
    simp [ih _ hrec]

theorem dnsResDecode_inv (buf : Slice) (querys answers ips : List GoString)
    (h : dnsResDecode buf = .ok (querys, answers, ips)) :
    ∃ (header data : Slice) (h4 h5 h6 h7 index last : Nat)
      (queryBytes answerBytes : List Slice),
      buf.sliceTo 12 = .ok header
        ∧ header.index 4 = .ok h4 ∧ header.index 5 = .ok h5
        ∧ header.index 6 = .ok h6 ∧ header.index 7 = .ok h7
        ∧ buf.sliceFrom 12 = .ok data
        ∧ questionLoop data (u16 h4 h5) 0 = .ok (queryBytes, index)
        ∧ answerLoop data (u16 h6 h7) index = .ok (answerBytes, last)
        ∧ collectQuerys queryBytes = .ok querys
        ∧ collectAnswers answerBytes = .ok (answers, ips) := by
  unfold dnsResDecode at h
  obtain ⟨header, hto, h⟩ := bind_eq_ok _ _ _ h
  obtain ⟨h4, hh4, h⟩ := bind_eq_ok _ _ _ h
  obtain ⟨h5, hh5, h⟩ := bind_eq_ok _ _ _ h
  obtain ⟨h6, hh6, h⟩ := bind_eq_ok _ _ _ h
  obtain ⟨h7, hh7, h⟩ := bind_eq_ok _ _ _ h
  obtain ⟨data, hfrom, h⟩ := bind_eq_ok _ _ _ h
  obtain ⟨⟨queryBytes, index⟩, hQ, h⟩ := bind_eq_ok _ _ _ h
  obtain ⟨⟨answerBytes, last⟩, hR, h⟩ := bind_eq_ok _ _ _ h
  obtain ⟨qs, hCQ, h⟩ := bind_eq_ok _ _ _ h
  obtain ⟨⟨as, is⟩, hCA, h⟩ := bind_eq_ok _ _ _ h
  injection h with h
  injection h with e1 h
  injection h with e2 e3
  subst e1 e2 e3
  exact ⟨header, data, h4, h5, h6, h7, index, last, queryBytes, answerBytes,
    hto, hh4, hh5, hh6, hh7, hfrom, hQ, hR, hCQ, hCA⟩


theorem fmtAddress_ne_nil (address : Slice) (s : GoString)
    (h : fmtAddress address = .ok s) : s ≠ [] := by
  unfold fmtAddress at h
  obtain ⟨a0, _, h⟩ := bind_eq_ok _ _ _ h
  obtain ⟨a1, _, h⟩ := bind_eq_ok _ _ _ h
  obtain ⟨a2, _, h⟩ := bind_eq_ok _ _ _ h
  obtain ⟨a3, _, h⟩ := bind_eq_ok _ _ _ h
  injection h with h
  subst h
  simp

theorem recordType_same (r : Slice) (h : recordType r = .ok 1) :
    getIP r = getAnswer r := by
  unfold recordType at h
  obtain ⟨b2, h2, h⟩ := bind_eq_ok _ _ _ h
  obtain ⟨b3, h3, h⟩ := bind_eq_ok _ _ _ h
  injection h with h
  unfold getIP getAnswer
  simp only [h2, h3, h, bind, Except.bind, if_true]

theorem getIP_cases (r : Slice) (ip : GoString) (h : getIP r = .ok ip) :
    (recordType r = .ok 1 ∧ ip ≠ []) ∨ (recordType r ≠ .ok 1 ∧ ip = []) := by
  unfold getIP at h
  obtain ⟨b2, h2, h⟩ := bind_eq_ok _ _ _ h
  obtain ⟨b3, h3, h⟩ := bind_eq_ok _ _ _ h
  obtain ⟨d0, _, h⟩ := bind_eq_ok _ _ _ h
  obtain ⟨d1, _, h⟩ := bind_eq_ok _ _ _ h
  obtain ⟨address, _, h⟩ := bind_eq_ok _ _ _ h
  have hrt : recordType r = .ok (u16 b2 b3) := by
    unfold recordType
    simp only [h2, h3, bind, Except.bind]
  rw [hrt]
  by_cases ht : u16 b2 b3 = 1
  · rw [if_pos ht] at h
    exact Or.inl ⟨by rw [ht], fmtAddress_ne_nil _ _ h⟩
  · rw [if_neg ht] at h
    injection h with h
    refine Or.inr ⟨?_, h.symm⟩
    intro hc
    injection hc with hc
    exact ht hc

theorem collectAnswers_shape :
    ∀ (recs : List Slice) (answers ips : List GoString),
      collectAnswers recs = .ok (answers, ips) →
      answers.length = recs.length
        ∧ ips = ((recs.zip answers).filter
            (fun p => decide (recordType p.1 = .ok 1))).map Prod.snd
        ∧ ∀ ip ∈ ips, ip ≠ [] := by
  intro recs
  induction recs with
  | nil =>
    intro answers ips h
    rw [collectAnswers] at h
    injection h with h
    injection h with h1 h2
    subst h1 h2
    simp
  | cons r rest ih =>
    intro answers ips h
    rw [collectAnswers] at h
    obtain ⟨a, hA, h⟩ := bind_eq_ok _ _ _ h
    obtain ⟨ip, hI, h⟩ := bind_eq_ok _ _ _ h
    obtain ⟨⟨as, is⟩, hrec, h⟩ := bind_eq_ok _ _ _ h
    injection h with h
    injection h with h1 h2
    subst h1 h2
    obtain ⟨hl, hips, hne⟩ := ih _ _ hrec
    rcases getIP_cases r ip hI with ⟨ht, hip⟩ | ⟨ht, hip⟩
    · have hsame := recordType_same r ht
      rw [hI, hA] at hsame
      injection hsame with hsame
      subst hsame
      refine ⟨by simp [hl], ?_, ?_⟩
      · simp only [hip, ne_eq, not_false_eq_true, if_true, List.zip_cons_cons,
          List.filter_cons, ht, decide_True, List.map_cons]
        rw [← hips]
      · intro x hx
        simp only [hip, ne_eq, not_false_eq_true, if_true, List.mem_cons] at hx
        rcases hx with hx | hx
        · rw [hx]; exact hip
        · exact hne x hx
    · subst hip
      refine ⟨by simp [hl], ?_, ?_⟩
      · simp only [ne_eq, not_true_eq_false, if_false, List.zip_cons_cons,
          List.filter_cons, ht, decide_False]
        exact hips
      · intro x hx
        simp only [ne_eq, not_true_eq_false, if_false] at hx
        exact hne x hx

theorem header_index (buf header : Slice) (i : Nat)
    (hto : buf.sliceTo 12 = .ok header) (hlen : 12 ≤ buf.len) (hi : i < 12) :
    header.index i = buf.index i := by
  obtain ⟨_, _, ht⟩ := Slice.slice_ok_bounds _ _ _ _ hto
  subst ht
  have hl : 12 ≤ buf.elems.length := hlen
  unfold Slice.index
  have e : (List.take (12 - 0) (List.drop 0 buf.mem))[i]? = buf.elems[i]? := by
    simp only [Nat.sub_zero, List.drop_zero, Slice.mem]
    rw [List.getElem?_take_of_lt hi, List.getElem?_append_left (by omega)]
  simp only [e]

theorem sliceFrom_ok_cap (buf data : Slice) (lo : Nat)
    (h : buf.sliceFrom lo = .ok data) : lo ≤ buf.len ∧ data.cap + lo = buf.cap := by
  obtain ⟨h1, h2, ht⟩ := Slice.slice_ok_bounds _ _ _ _ h
  subst ht
  have hl : buf.elems.length = buf.len := rfl
  refine ⟨h1, ?_⟩
  simp only [Slice.cap, Slice.mem, List.length_take, List.length_drop, List.length_append] at *
  omega

/-- C15, as the code has it. For every buffer on which dnsResDecode returns a
result, the number of query strings is the big-endian value of header bytes
4-5 and the number of answer strings that of header bytes 6-7, and the
records were found inside the capacity of the buffer: a buffer whose capacity
is below 12 + 5 * QDCOUNT + 12 * ANCOUNT never yields a result. -/
theorem dnsResDecode_counts (buf : Slice) (querys answers ips : List GoString)
    (h : dnsResDecode buf = .ok (querys, answers, ips)) :
    ∃ h4 h5 h6 h7 : Nat,
      buf.index 4 = .ok h4 ∧ buf.index 5 = .ok h5
        ∧ buf.index 6 = .ok h6 ∧ buf.index 7 = .ok h7
        ∧ querys.length = u16 h4 h5 ∧ answers.length = u16 h6 h7
        ∧ 12 + 5 * querys.length + 12 * answers.length ≤ buf.cap := by
  obtain ⟨header, data, h4, h5, h6, h7, index, last, queryBytes, answerBytes,
    hto, hh4, hh5, hh6, hh7, hfrom, hQ, hR, hCQ, hCA⟩ := dnsResDecode_inv _ _ _ _ h
  obtain ⟨hlen, hcap⟩ := sliceFrom_ok_cap _ _ _ hfrom
  obtain ⟨hq1, hq2, hq3⟩ := questionLoop_bounds _ _ _ _ _ hQ
  obtain ⟨hr1, hr2, hr3⟩ := answerLoop_bounds _ _ _ _ _ hR
  have hql := collectQuerys_length _ _ hCQ
  have hal := (collectAnswers_shape _ _ _ hCA).1
  rw [header_index buf header 4 hto hlen (by omega)] at hh4
  rw [header_index buf header 5 hto hlen (by omega)] at hh5
  rw [header_index buf header 6 hto hlen (by omega)] at hh6
  rw [header_index buf header 7 hto hlen (by omega)] at hh7
  refine ⟨h4, h5, h6, h7, hh4, hh5, hh6, hh7, by omega, by omega, ?_⟩
  rw [hql, hal, hq1, hr1]
  by_cases hn : 0 < u16 h6 h7
  · have := hr3 hn
    omega
  · have hn0 : u16 h6 h7 = 0 := by omega
    by_cases hq : 0 < u16 h4 h5
    · have := hq3 hq
      omega
    · omega

theorem dnsResDecode_counts_witness :
    ∃ h4 h5 h6 h7 : Nat,
      Slice.index ⟨DigDNRequest (ascii "example.com"), []⟩ 4 = .ok h4
        ∧ Slice.index ⟨DigDNRequest (ascii "example.com"), []⟩ 5 = .ok h5
        ∧ Slice.index ⟨DigDNRequest (ascii "example.com"), []⟩ 6 = .ok h6
        ∧ Slice.index ⟨DigDNRequest (ascii "example.com"), []⟩ 7 = .ok h7
        ∧ [ascii "example.com"].length = u16 h4 h5
        ∧ ([] : List GoString).length = u16 h6 h7
        ∧ 12 + 5 * [ascii "example.com"].length + 12 * ([] : List GoString).length
            ≤ Slice.cap ⟨DigDNRequest (ascii "example.com"), []⟩ :=
  dnsResDecode_counts ⟨DigDNRequest (ascii "example.com"), []⟩
    [ascii "example.com"] [] [] (by decide)

/-- C15 as stated fails: the 17-byte buffer holds a question cut after two of
its four type and class bytes, so it holds no whole question while QDCOUNT is
1; with three spare bytes in the backing array dnsResDecode returns a
result. The second buffer has ANCOUNT = 1 and a record cut after two of its
four data bytes, and yields a result as well. -/
theorem dnsResDecode_result_from_spare_capacity :
    dnsResDecode
        ⟨[0xFF, 0xFF, 0x81, 0x80, 0, 1, 0, 0, 0, 0, 0, 0, 1, 97, 0, 0, 1], [0, 0, 0]⟩
        = .ok ([ascii "a"], [], [])
      ∧ dnsResDecode
          ⟨[0xFF, 0xFF, 0x81, 0x80, 0, 0, 0, 1, 0, 0, 0, 0,
            0xC0, 0x0C, 0, 1, 0, 1, 0, 0, 0, 60, 0, 4, 10, 0], [0, 0, 0]⟩
        = .ok ([], [ascii "10.0.0.0"], [ascii "10.0.0.0"]) := by
  decide


/-- C20. For every buffer on which dnsResDecode returns a result, with
answerBytes the record slices its answer walk cut out of the buffer: there is
one answer string per record, ips is the list of the answers of the records
whose type field is 1, in record order, so ips is no longer than answers and
holds no empty string; and getIP and getAnswer agree on every record whose
type field is 1. -/
theorem ips_mirror_type1_answers (buf : Slice) (querys answers ips : List GoString)
    (h : dnsResDecode buf = .ok (querys, answers, ips)) :
    (∃ (data : Slice) (count index last : Nat) (answerBytes : List Slice),
        buf.sliceFrom 12 = .ok data
          ∧ answerLoop data count index = .ok (answerBytes, last)
          ∧ collectAnswers answerBytes = .ok (answers, ips)
          ∧ answers.length = answerBytes.length
          ∧ ips = ((answerBytes.zip answers).filter
              (fun p => decide (recordType p.1 = .ok 1))).map Prod.snd)
      ∧ ips.length ≤ answers.length
      ∧ (∀ ip ∈ ips, ip ≠ [])
      ∧ ∀ r : Slice, recordType r = .ok 1 → getIP r = getAnswer r := by
  obtain ⟨header, data, h4, h5, h6, h7, index, last, queryBytes, answerBytes,
    hto, hh4, hh5, hh6, hh7, hfrom, hQ, hR, hCQ, hCA⟩ := dnsResDecode_inv _ _ _ _ h
  obtain ⟨hl, hips, hne⟩ := collectAnswers_shape _ _ _ hCA
  refine ⟨⟨data, u16 h6 h7, index, last, answerBytes, hfrom, hR, hCA, hl, hips⟩,
    ?_, hne, recordType_same⟩
  rw [hips, List.length_map]
  calc ((answerBytes.zip answers).filter _).length
      ≤ (answerBytes.zip answers).length := List.length_filter_le _ _
    _ ≤ answers.length := by
        rw [List.length_zip]
        omega

theorem ips_mirror_type1_answers_witness :
    (∃ (data : Slice) (count index last : Nat) (answerBytes : List Slice),
        Slice.sliceFrom
            ⟨[0xFF, 0xFF, 0x81, 0x80, 0, 0, 0, 2, 0, 0, 0, 0,
              0xC0, 0x0C, 0, 16, 0, 1, 0, 0, 0, 60, 0, 3, 2, 104, 105,
              0xC0, 0x0C, 0, 1, 0, 1, 0, 0, 0, 60, 0, 4, 10, 0, 0, 1], []⟩ 12
            = .ok data
          ∧ answerLoop data count index = .ok (answerBytes, last)
          ∧ collectAnswers answerBytes = .ok ([[], ascii "10.0.0.1"], [ascii "10.0.0.1"])
          ∧ [[], ascii "10.0.0.1"].length = answerBytes.length
          ∧ [ascii "10.0.0.1"] = ((answerBytes.zip [[], ascii "10.0.0.1"]).filter
              (fun p => decide (recordType p.1 = .ok 1))).map Prod.snd)
      ∧ [ascii "10.0.0.1"].length ≤ [[], ascii "10.0.0.1"].length
      ∧ (∀ ip ∈ [ascii "10.0.0.1"], ip ≠ [])
      ∧ ∀ r : Slice, recordType r = .ok 1 → getIP r = getAnswer r :=
  ips_mirror_type1_answers
    ⟨[0xFF, 0xFF, 0x81, 0x80, 0, 0, 0, 2, 0, 0, 0, 0,
      0xC0, 0x0C, 0, 16, 0, 1, 0, 0, 0, 60, 0, 3, 2, 104, 105,
      0xC0, 0x0C, 0, 1, 0, 1, 0, 0, 0, 60, 0, 4, 10, 0, 0, 1], []⟩
    [] [[], ascii "10.0.0.1"] [ascii "10.0.0.1"] (by decide)


/-! ## The fuel of the loops is enough -/

theorem bind_ne_fuel {α β : Type} (x : Except Fault α) (f : α → Except Fault β)
    (hx : x ≠ .error .fuel) (hf : ∀ a, f a ≠ .error .fuel) :
    x >>= f ≠ .error .fuel := by
  cases x with
  | error e =>
    intro hc
    apply hx
    injection hc with hc
    rw [hc]
  | ok a => exact hf a

theorem Slice.index_ne_fuel (s : Slice) (i : Nat) : s.index i ≠ .error .fuel := by
  rcases Slice.index_cases s i with ⟨b, h⟩ | h <;> rw [h] <;> intro hc <;> cases hc

theorem Slice.slice_ne_fuel (s : Slice) (lo hi : Nat) :
    s.slice lo hi ≠ .error .fuel := by
  unfold Slice.slice
  split <;> intro hc <;> cases hc

theorem getDN_ne_fuel (bytes : Slice) : getDN bytes ≠ .error .fuel := by
  obtain ⟨dn, hdn⟩ := getDNLoop_total bytes (bytes.len + 1) 0 [] (by omega) (by omega)
  unfold getDN
  rw [hdn]
  intro hc
  cases hc

theorem skipLabels_ne_fuel (data : Slice) :
    ∀ (fuel index : Nat), 1 ≤ fuel → data.len + 1 ≤ fuel + index →
      skipLabels data fuel index ≠ .error .fuel := by
  intro fuel
  induction fuel with
  | zero => intro index h; omega
  | succ f ih =>
    intro index _ hinv
    rw [skipLabels]
    by_cases hlt : index < data.len
    · obtain ⟨l, hl⟩ := Slice.index_in_range data index hlt
      simp only [hl, bind, Except.bind]
      by_cases hl0 : l = 0
      · rw [if_pos hl0]; intro hc; cases hc
      · rw [if_neg hl0]
        exact ih (index + 1 + l) (by omega) (by omega)
    · have hp := Slice.index_past_end data index (by unfold Slice.len at hlt; omega)
      simp only [hp, bind, Except.bind]
      intro hc
      cases hc

theorem questionStep_ne_fuel (data : Slice) (index : Nat) :
    questionStep data index ≠ .error .fuel := by
  unfold questionStep
  refine bind_ne_fuel _ _ (skipLabels_ne_fuel data _ _ (by omega) (by omega)) ?_
  intro idx
  refine bind_ne_fuel _ _ (Slice.slice_ne_fuel _ _ _) ?_
  intro q hc
  cases hc

theorem questionLoop_ne_fuel (data : Slice) :
    ∀ (count index : Nat), questionLoop data count index ≠ .error .fuel := by
  intro count
  induction count with
  | zero => intro index hc; rw [questionLoop] at hc; cases hc
  | succ c ih =>
    intro index
    rw [questionLoop]
    refine bind_ne_fuel _ _ (questionStep_ne_fuel data index) ?_
    rintro ⟨q, i⟩
    refine bind_ne_fuel _ _ (ih i) ?_
    rintro ⟨qs, j⟩ hc
    cases hc

theorem answerStep_ne_fuel (data : Slice) (index : Nat) :
    answerStep data index ≠ .error .fuel := by
  unfold answerStep
  refine bind_ne_fuel _ _ (Slice.index_ne_fuel _ _) ?_
  intro d0
  refine bind_ne_fuel _ _ (Slice.index_ne_fuel _ _) ?_
  intro d1
  refine bind_ne_fuel _ _ (Slice.slice_ne_fuel _ _ _) ?_
  intro a hc
  cases hc

theorem answerLoop_ne_fuel (data : Slice) :
    ∀ (count index : Nat), answerLoop data count index ≠ .error .fuel := by
  intro count
  induction count with
  | zero => intro index hc; rw [answerLoop] at hc; cases hc
  | succ c ih =>
    intro index
    rw [answerLoop]
    refine bind_ne_fuel _ _ (answerStep_ne_fuel data index) ?_
    rintro ⟨a, i⟩
    refine bind_ne_fuel _ _ (ih i) ?_
    rintro ⟨as, j⟩ hc
    cases hc

theorem fmtAddress_ne_fuel (address : Slice) : fmtAddress address ≠ .error .fuel := by
  unfold fmtAddress
  refine bind_ne_fuel _ _ (Slice.index_ne_fuel _ _) ?_
  intro a0
  refine bind_ne_fuel _ _ (Slice.index_ne_fuel _ _) ?_
  intro a1
  refine bind_ne_fuel _ _ (Slice.index_ne_fuel _ _) ?_
  intro a2
  refine bind_ne_fuel _ _ (Slice.index_ne_fuel _ _) ?_
  intro a3 hc
  cases hc

theorem getAnswer_ne_fuel (bytes : Slice) : getAnswer bytes ≠ .error .fuel := by
  unfold getAnswer
  refine bind_ne_fuel _ _ (Slice.index_ne_fuel _ _) ?_
  intro b2
  refine bind_ne_fuel _ _ (Slice.index_ne_fuel _ _) ?_
  intro b3
  refine bind_ne_fuel _ _ (Slice.index_ne_fuel _ _) ?_
  intro d0
  refine bind_ne_fuel _ _ (Slice.index_ne_fuel _ _) ?_
  intro d1
  refine bind_ne_fuel _ _ (Slice.slice_ne_fuel _ _ _) ?_
  intro address
  split
  · exact fmtAddress_ne_fuel address
  · split
    · exact getDN_ne_fuel bytes
    · intro hc; cases hc

theorem getIP_ne_fuel (bytes : Slice) : getIP bytes ≠ .error .fuel := by
  unfold getIP
  refine bind_ne_fuel _ _ (Slice.index_ne_fuel _ _) ?_
  intro b2
  refine bind_ne_fuel _ _ (Slice.index_ne_fuel _ _) ?_
  intro b3
  refine bind_ne_fuel _ _ (Slice.index_ne_fuel _ _) ?_
  intro d0
  refine bind_ne_fuel _ _ (Slice.index_ne_fuel _ _) ?_
  intro d1
  refine bind_ne_fuel _ _ (Slice.slice_ne_fuel _ _ _) ?_
  intro address
  split
  · exact fmtAddress_ne_fuel address
  · intro hc; cases hc

theorem collectQuerys_ne_fuel :
    ∀ sl : List Slice, collectQuerys sl ≠ .error .fuel := by
  intro sl
  induction sl with
  | nil => intro hc; rw [collectQuerys] at hc; cases hc
  | cons s rest ih =>
    rw [collectQuerys]
    refine bind_ne_fuel _ _ (getDN_ne_fuel s) ?_
    intro q
    refine bind_ne_fuel _ _ ih ?_
    intro qs hc
    cases hc

theorem collectAnswers_ne_fuel :
    ∀ sl : List Slice, collectAnswers sl ≠ .error .fuel := by
  intro sl
  induction sl with
  | nil => intro hc; rw [collectAnswers] at hc; cases hc
  | cons s rest ih =>
    rw [collectAnswers]
    refine bind_ne_fuel _ _ (getAnswer_ne_fuel s) ?_
    intro a
    refine bind_ne_fuel _ _ (getIP_ne_fuel s) ?_
    intro ip
    refine bind_ne_fuel _ _ ih ?_
    rintro ⟨as, is⟩ hc
    cases hc

theorem dnsResDecode_ne_fuel (buf : Slice) : dnsResDecode buf ≠ .error .fuel := by
  unfold dnsResDecode
  refine bind_ne_fuel _ _ (Slice.slice_ne_fuel _ _ _) ?_
  intro header
  refine bind_ne_fuel _ _ (Slice.index_ne_fuel _ _) ?_
  intro h4
  refine bind_ne_fuel _ _ (Slice.index_ne_fuel _ _) ?_
  intro h5
  refine bind_ne_fuel _ _ (Slice.index_ne_fuel _ _) ?_
  intro h6
  refine bind_ne_fuel _ _ (Slice.index_ne_fuel _ _) ?_
  intro h7
  refine bind_ne_fuel _ _ (Slice.slice_ne_fuel _ _ _) ?_
  intro data
  refine bind_ne_fuel _ _ (questionLoop_ne_fuel _ _ _) ?_
  rintro ⟨queryBytes, index⟩
  refine bind_ne_fuel _ _ (answerLoop_ne_fuel _ _ _) ?_
  rintro ⟨answerBytes, last⟩
  refine bind_ne_fuel _ _ (collectQuerys_ne_fuel _) ?_
  intro querys
  refine bind_ne_fuel _ _ (collectAnswers_ne_fuel _) ?_
  rintro ⟨answers, ips⟩ hc
  cases hc

end DnsReq
